import Mathlib

/-!
Verification development for the batch archive extraction tool (`unpack.py`).

Python strings are modelled as `List Char` (ASCII discipline: `str.lower`
becomes `Char.toLower` on each character, `str.isdigit` becomes
`Char.isDigit` on each character).  Filesystem paths are `List Char` as
well; the filesystem itself is modelled by explicit existence predicates
passed in as environment fields, and by traces of mutating operations.
-/

namespace Unpack

/-- Table of ASCII basic latin capital letters with their small
counterparts. -/
def upperLowerTable : List (Char × Char) :=
  [('A', 'a'), ('B', 'b'), ('C', 'c'), ('D', 'd'), ('E', 'e'), ('F', 'f'), ('G', 'g'),
   ('H', 'h'), ('I', 'i'), ('J', 'j'), ('K', 'k'), ('L', 'l'), ('M', 'm'), ('N', 'n'),
   ('O', 'o'), ('P', 'p'), ('Q', 'q'), ('R', 'r'), ('S', 's'), ('T', 't'), ('U', 'u'),
   ('V', 'v'), ('W', 'w'), ('X', 'x'), ('Y', 'y'), ('Z', 'z')]

/-- ASCII case folding of a single character (the `str.lower` model):
each basic latin capital letter maps to its small counterpart, and every
other character is fixed. -/
def pyLowerChar (c : Char) : Char :=
  match upperLowerTable.find? (fun q => q.1 == c) with
  | some q => q.2
  | none => c

/-- Python `s.lower()` (ASCII model). -/
def pyLower (s : List Char) : List Char := s.map pyLowerChar

/-- Python `s.isdigit()`: nonempty and all digits (ASCII model). -/
def pyIsDigitStr (s : List Char) : Bool := !s.isEmpty && s.all (fun c => c.isDigit)

/-- Python `int(s)` on a string of decimal digits. -/
def pyStrToNat (s : List Char) : Nat := s.foldl (fun a c => 10 * a + (c.toNat - 48)) 0

/-- Python `s.endswith(suf)`. -/
def endswithL (suf s : List Char) : Bool := suf.reverse.isPrefixOf s.reverse

/-- Largest `i < bound` satisfying `p`, or `none`.  Used to model both
`str.rfind` and the leftmost-greedy backtracking of an anchored Python
regex (greedy `(.+)` picks the largest viable split point). -/
def findMaxBelow (p : Nat → Bool) : Nat → Option Nat
  | 0 => none
  | n + 1 => if p n then some n else findMaxBelow p n

/-- Smallest `i < bound` satisfying `p`, or `none`.  Models the
leftmost-match scan of `re.search`. -/
def findMinBelow (p : Nat → Bool) : Nat → Option Nat
  | 0 => none
  | n + 1 =>
    match findMinBelow p n with
    | some i => some i
    | none => if p n then some n else none

/-- Python `s.rfind(pat)` restricted to found results: index of the last
occurrence of `pat` in `s`, or `none` when `pat not in s`. -/
def rfindSub (pat s : List Char) : Option Nat :=
  findMaxBelow (fun i => pat.isPrefixOf (s.drop i)) (s.length + 1)

/-- Python `pat in s` (substring containment). -/
def containsSub (pat s : List Char) : Bool := (rfindSub pat s).isSome

/-- The three double-extension tokens checked by format 1 of the
classifier, in the source's loop order. -/
def tokZip : List Char := ['.', 'z', 'i', 'p', '.']

def tokSevenZ : List Char := ['.', '7', 'z', '.']

def tokRar : List Char := ['.', 'r', 'a', 'r', '.']

def volTokens : List (List Char) := [tokZip, tokSevenZ, tokRar]

/-- One iteration of format 1's `for ext in ['.zip.', '.7z.', '.rar.']`
loop body: if the token occurs in the lowered name, take the suffix after
its last occurrence; when that suffix is purely numeric, produce the
sequence number and the base name `filename[:idx + len(ext) - 1]`
(original case preserved). -/
def fmt1Try (filename lower tok : List Char) : Option (Nat × List Char) :=
  match rfindSub tok lower with
  | none => none
  | some idx =>
    let suffix := lower.drop (idx + tok.length)
    if pyIsDigitStr suffix then some (pyStrToNat suffix, filename.take (idx + tok.length - 1))
    else none

/-- Validity of a match of `(.+)\.part(\d+)\.(rar|zip|7z)$` whose `(.+)`
group has length `i` (all on the lowered name): `.part` occurs at `i`
with `i ≥ 1`, followed by a nonempty digit run, followed by exactly
`.rar`, `.zip` or `.7z` ending the string. -/
def fmt2ValidAt (lower : List Char) (i : Nat) : Bool :=
  0 < i && ['.', 'p', 'a', 'r', 't'].isPrefixOf (lower.drop i) &&
    (let t := lower.drop (i + 5)
     let d := t.takeWhile (fun c => c.isDigit)
     !d.isEmpty &&
       (let r := t.drop d.length
        r = ['.', 'r', 'a', 'r'] || r = ['.', 'z', 'i', 'p'] || r = ['.', '7', 'z']))

/-- Greedy split point of format 2's regex (largest valid `i`). -/
def fmt2Idx (lower : List Char) : Option Nat :=
  findMaxBelow (fmt2ValidAt lower) lower.length

/-- Validity of a match of `(.+)\.z(\d+)$` whose `(.+)` group has length
`i` (on the lowered name). -/
def fmt3ValidAt (lower : List Char) (i : Nat) : Bool :=
  0 < i && ['.', 'z'].isPrefixOf (lower.drop i) && pyIsDigitStr (lower.drop (i + 2))

/-- Greedy split point of format 3's regex. -/
def fmt3Idx (lower : List Char) : Option Nat :=
  findMaxBelow (fmt3ValidAt lower) lower.length

/-- `re.search(r'\.(\d{3})$', s)` succeeds iff the last four characters
are a dot followed by exactly three digits. -/
def fmt4Check (lower : List Char) : Bool :=
  match lower.reverse with
  | c1 :: c2 :: c3 :: c4 :: _ => c1.isDigit && c2.isDigit && c3.isDigit && c4 = '.'
  | _ => false

/-- `is_volume_part` (unpack.py lines 114-151): classify a filename as a
multi-volume member, returning `(isVolume, sequenceNumber, baseName)`.
Formats are tried in the source's order; note that format 3 returns the
base from the lowered name (`match.group(1)` of a match on
`lower_name`), while formats 1, 2 and 4 slice the original filename. -/
def is_volume_part (filename : List Char) : Bool × Nat × List Char :=
  let lower := pyLower filename
  match fmt1Try filename lower tokZip <|> fmt1Try filename lower tokSevenZ <|>
      fmt1Try filename lower tokRar with
  | some (n, b) => (true, n, b)
  | none =>
    match fmt2Idx lower with
    | some i =>
      (true, pyStrToNat ((lower.drop (i + 5)).takeWhile (fun c => c.isDigit)), filename.take i)
    | none =>
      match fmt3Idx lower with
      | some i => (true, pyStrToNat (lower.drop (i + 2)), lower.take i)
      | none =>
        if fmt4Check lower then
          (true, pyStrToNat (lower.drop (lower.length - 3)),
            filename.take (filename.length - 4))
        else (false, 0, filename)

/-- `os.path.join` for a relative second component (posix model). -/
def pyJoin (d n : List Char) : List Char :=
  if d = [] then n
  else if d.getLast? = some '/' then d ++ n
  else d ++ '/' :: n

/-- `os.path.basename`: everything after the last `/`. -/
def pyBasename (p : List Char) : List Char :=
  ((p.reverse).takeWhile (fun c => c ≠ '/')).reverse

/-- Python `filename.split('.')[-1]`: the segment after the last dot (the
whole string when there is no dot). -/
def pySplitLastDot (s : List Char) : List Char :=
  ((s.reverse).takeWhile (fun c => c ≠ '.')).reverse

/-- Python `'1'.zfill(n)`. -/
def zfill1 (n : Nat) : List Char := List.replicate (n - 1) '0' ++ ['1']

/-- `lower_filename.endswith(tuple(f'.z{i:02d}' for i in range(1, 100)))`:
the name ends in `.z` plus two digits that are not both zero. -/
def endsZ2 (lower : List Char) : Bool :=
  match lower.reverse with
  | c1 :: c2 :: c3 :: c4 :: _ =>
    c1.isDigit && c2.isDigit && c3 = 'z' && c4 = '.' && !(c1 = '0' && c2 = '0')
  | _ => false

/-- Validity of a match of `re.search(r'\.part(\d+)\.', lower)` starting
at index `i`. -/
def partSearchValidAt (lower : List Char) (i : Nat) : Bool :=
  ['.', 'p', 'a', 'r', 't'].isPrefixOf (lower.drop i) &&
    (let t := lower.drop (i + 5)
     let d := t.takeWhile (fun c => c.isDigit)
     !d.isEmpty && (t.drop d.length).take 1 = ['.'])

/-- `re.search(r'\.part(\d+)\.', lower)`: the number of digits captured
at the leftmost match, when one exists. -/
def partSearchDigits (lower : List Char) : Option Nat :=
  match findMinBelow (partSearchValidAt lower) lower.length with
  | some i => some (((lower.drop (i + 5)).takeWhile (fun c => c.isDigit)).length)
  | none => none

/-- The first-volume candidate filenames tried by `get_first_volume`
(unpack.py lines 173-200), in order, for a volume member `filename` with
classifier base `base`. -/
def gfvCands (filename base : List Char) : List (List Char) :=
  let lower := pyLower filename
  (if containsSub tokZip lower || containsSub tokSevenZ lower ||
      containsSub tokRar lower then [base ++ ['.', '0', '0', '1']] else []) ++
  (if containsSub ['.', 'p', 'a', 'r', 't'] lower then
    match partSearchDigits lower with
    | some nd =>
      let e := pySplitLastDot filename
      [base ++ ['.', 'p', 'a', 'r', 't'] ++ zfill1 nd ++ '.' :: e] ++
        (if 1 < nd then [base ++ ['.', 'p', 'a', 'r', 't', '1', '.'] ++ e] else [])
    | none => []
  else []) ++
  (if endsZ2 lower || (fmt3Idx lower).isSome then
    [base ++ ['.', 'z', '0', '1'], base ++ ['.', 'z', 'i', 'p']] else []) ++
  (if fmt4Check lower then [base ++ ['.', '0', '0', '1']] else [])

/-- `get_first_volume` (unpack.py lines 154-209): given a filesystem
existence predicate `ex` on full paths, resolve a volume member to its
group's first volume when a candidate first-volume file exists on disk,
else return the input path unchanged. -/
def get_first_volume (file_path filename target_directory : List Char)
    (ex : List Char → Bool) : List Char :=
  let v := is_volume_part filename
  if !v.1 then file_path
  else if v.2.1 = 1 then file_path
  else
    match (gfvCands filename v.2.2).find? (fun c => ex (pyJoin target_directory c)) with
    | some c => pyJoin target_directory c
    | none => file_path

/-- First step of the extraction-name normalization (unpack.py lines
298-299): strip an outer `.rar`/`.zip` (4 chars) or `.7z` (3 chars)
extension, case-insensitively. -/
def stripExtOuter (n : List Char) : List Char :=
  let lower := pyLower n
  if endswithL ['.', 'r', 'a', 'r'] lower || endswithL ['.', 'z', 'i', 'p'] lower then
    n.take (n.length - 4)
  else if endswithL ['.', '7', 'z'] lower then n.take (n.length - 3)
  else n

/-- `re.sub(r'\.part\d+$', '', n, flags=re.IGNORECASE)`. -/
def subPartTail (n : List Char) : List Char :=
  let r := n.reverse
  let d := r.takeWhile (fun c => c.isDigit)
  if !d.isEmpty && pyLower ((r.drop d.length).take 5) = ['t', 'r', 'a', 'p', '.'] then
    n.take (n.length - (5 + d.length))
  else n

/-- `re.sub(r'\.z\d+$', '', n, flags=re.IGNORECASE)`. -/
def subZTail (n : List Char) : List Char :=
  let r := n.reverse
  let d := r.takeWhile (fun c => c.isDigit)
  if !d.isEmpty && pyLower ((r.drop d.length).take 2) = ['z', '.'] then
    n.take (n.length - (2 + d.length))
  else n

/-- `re.sub(r'\.(zip|7z|rar)\.\d+$', '', n, flags=re.IGNORECASE)`. -/
def subCompoundTail (n : List Char) : List Char :=
  let r := n.reverse
  let d := r.takeWhile (fun c => c.isDigit)
  let t := r.drop d.length
  if !d.isEmpty && pyLower (t.take 5) = ['.', 'p', 'i', 'z', '.'] then
    n.take (n.length - (5 + d.length))
  else if !d.isEmpty && pyLower (t.take 4) = ['.', 'z', '7', '.'] then
    n.take (n.length - (4 + d.length))
  else if !d.isEmpty && pyLower (t.take 5) = ['.', 'r', 'a', 'r', '.'] then
    n.take (n.length - (5 + d.length))
  else n

/-- `re.sub(r'\.\d{3}$', '', n)` (the end test is the same dot-plus-three
-digits check as `fmt4Check`, applied to the unlowered name — digits and
the dot are unaffected by case folding). -/
def subDddTail (n : List Char) : List Char :=
  if fmt4Check n then n.take (n.length - 4) else n

/-- `re.sub(r'_zip$', '', n, flags=re.IGNORECASE)`. -/
def subUZipTail (n : List Char) : List Char :=
  if pyLower ((n.reverse).take 4) = ['p', 'i', 'z', '_'] then n.take (n.length - 4) else n

/-- The Canonical-Name Normalizer (unpack.py lines 297-305): derive the
extraction directory leaf name from the resolved archive filename. -/
def extractNameOf (target_filename : List Char) : List Char :=
  subUZipTail (subDddTail (subCompoundTail (subZTail (subPartTail (stripExtOuter target_filename)))))

/-- Archive-candidacy cascade of the Job Builder (unpack.py lines
258-272). -/
def isArchiveName (filename : List Char) : Bool :=
  let lower := pyLower filename
  let hasExt := endswithL ['.', 'z', 'i', 'p'] lower || endswithL ['.', '7', 'z'] lower ||
    endswithL ['.', 'r', 'a', 'r'] lower
  if hasExt then true
  else if containsSub tokZip lower || containsSub tokSevenZ lower ||
      containsSub tokRar lower then true
  else if endsZ2 lower then true
  else if fmt4Check lower then true
  else if containsSub ['.', 'p', 'a', 'r', 't'] lower && hasExt then true
  else (is_volume_part filename).1

/-- The completion-marker filename `.zipp_done`. -/
def markerName : List Char := ['.', 'z', 'i', 'p', 'p', '_', 'd', 'o', 'n', 'e']

/-- Environment of a Job Builder scan: the input directory path, the
output base directory, and the filesystem existence predicate
(`os.path.exists` on full paths). -/
structure ScanEnv where
  dir : List Char
  outBase : List Char
  fsExists : List Char → Bool

/-- An `ExtractionJob` as appended to `archives_to_process`. -/
structure Job where
  sourcePath : List Char
  extractDir : List Char
  isVolume : Bool
  baseName : List Char
deriving DecidableEq

/-- Mutable state of the scan loop (reporting aggregates plus the
deduplication set and the job list; the per-extension ignored map and
per-group member counts are reporting-only and collapsed to counts). -/
structure ScanState where
  total : Nat
  ignored : Nat
  normalCount : Nat
  volumeCount : Nat
  skipped : Nat
  processed : List (List Char)
  jobs : List Job
deriving DecidableEq

def initState : ScanState := ⟨0, 0, 0, 0, 0, [], []⟩

/-- The resolved source file the scan computes for a filename
(`target_file = get_first_volume(...)`). -/
def targetFileFor (env : ScanEnv) (filename : List Char) : List Char :=
  get_first_volume (pyJoin env.dir filename) filename env.dir env.fsExists

/-- The extraction directory the scan computes for a filename (resolver
then normalizer, joined under the output base). -/
def extractDirFor (env : ScanEnv) (filename : List Char) : List Char :=
  pyJoin env.outBase (extractNameOf (pyBasename (targetFileFor env filename)))

/-- One iteration of the Job Builder loop body (unpack.py lines 250-321)
for a regular file. -/
def scanFile (env : ScanEnv) (st : ScanState) (filename : List Char) : ScanState :=
  let st := { st with total := st.total + 1 }
  if !isArchiveName filename then { st with ignored := st.ignored + 1 }
  else
    let v := is_volume_part filename
    let base := v.2.2
    if st.processed.contains base then st
    else if env.fsExists (pyJoin (extractDirFor env filename) markerName) then
      { st with skipped := st.skipped + 1, processed := base :: st.processed }
    else
      { st with
        jobs := st.jobs ++
          [⟨targetFileFor env filename, extractDirFor env filename, v.1, base⟩],
        processed := base :: st.processed,
        volumeCount := if v.1 then st.volumeCount + 1 else st.volumeCount,
        normalCount := if v.1 then st.normalCount else st.normalCount + 1 }

/-- The Job Builder: scan the directory listing once. -/
def scanDir (env : ScanEnv) (files : List (List Char)) : ScanState :=
  files.foldl (scanFile env) initState

/-- Filesystem operations the Extraction Executor can perform, recorded
as a trace. -/
inductive FSOp where
  | rmTree (p : List Char)
  | makeDirs (p : List Char)
  | rename (src dst : List Char)
  | writeFile (p content : List Char)
deriving DecidableEq

/-- Outcome of the `subprocess.run` invocation of the external tool:
either `FileNotFoundError` (binary absent) or completion with an exit
code and captured stderr. -/
inductive ToolOutcome where
  | raisesNotFound : ToolOutcome
  | completes (rc : Nat) (stderr : List Char) : ToolOutcome
deriving DecidableEq

/-- Environment of one executor run: pre-state existence of the temp
directory and of `extractDir`, the tool outcome, and a fault oracle
(`raiseAt = some k` makes the `k`-th attempted filesystem operation raise
an exception; `none` means no filesystem fault). -/
structure ExecEnv where
  tmpExists : Bool
  extractExists : Bool
  tool : ToolOutcome
  raiseAt : Option Nat
deriving DecidableEq

def opRaises (raiseAt : Option Nat) (idx : Nat) : Bool :=
  match raiseAt with
  | some k => idx = k
  | none => false

/-- Attempt a list of filesystem operations starting at global index
`idx`: returns the successfully executed trace, whether all succeeded
(`false` = an exception was raised), and the next index. -/
def runOps (raiseAt : Option Nat) : Nat → List FSOp → List FSOp × Bool × Nat
  | idx, [] => ([], true, idx)
  | idx, op :: rest =>
    if opRaises raiseAt idx then ([], false, idx)
    else
      let r := runOps raiseAt (idx + 1) rest
      (op :: r.1, r.2.1, r.2.2)

/-- The fixed temp-directory suffix `.out_tmp`. -/
def outTmpSuffix : List Char := ['.', 'o', 'u', 't', '_', 't', 'm', 'p']

def doneContent : List Char :=
  "Decompression finished successfully".toList

/-- Result of `decompress_archive_with_7z`: the boolean the function
returns, the trace of successfully executed filesystem operations, and
the diagnostic stderr text printed on the nonzero-exit path. -/
structure DecompResult where
  success : Bool
  trace : List FSOp
  diag : Option (List Char)
deriving DecidableEq

/-- `decompress_archive_with_7z` (unpack.py lines 33-111).  The body
mirrors the source: clean a stale temp directory, create it, run the
tool; on exit 0 remove a pre-existing `extract_dir`, rename the temp
directory onto it, and write the `.zipp_done` marker; on nonzero exit
return failure leaving the temp directory in place; every exception
(tool binary absent, or any filesystem fault) is caught and reported as
failure. -/
def execPreOps (env : ExecEnv) (tmp : List Char) : List FSOp :=
  (if env.tmpExists then [FSOp.rmTree tmp] else []) ++ [FSOp.makeDirs tmp]

def execPostOps (env : ExecEnv) (extract_dir tmp : List Char) : List FSOp :=
  (if env.extractExists then [FSOp.rmTree extract_dir] else []) ++
    [FSOp.rename tmp extract_dir,
     FSOp.writeFile (pyJoin extract_dir markerName) doneContent]

def decompress_archive_with_7z (env : ExecEnv) (archive_path extract_dir : List Char) :
    DecompResult :=
  let tmp := extract_dir ++ outTmpSuffix
  let r1 := runOps env.raiseAt 0 (execPreOps env tmp)
  if !r1.2.1 then ⟨false, r1.1, none⟩
  else
    match env.tool with
    | ToolOutcome.raisesNotFound => ⟨false, r1.1, none⟩
    | ToolOutcome.completes rc stderr =>
      if rc = 0 then
        let r2 := runOps env.raiseAt r1.2.2 (execPostOps env extract_dir tmp)
        ⟨r2.2.1, r1.1 ++ r2.1, none⟩
      else ⟨false, r1.1, if stderr = [] then none else some stderr⟩

/-- The post-run cleanup step (unpack.py lines 464-473): for each failed
job's `extract_dir`, delete `extract_dir + '.out_tmp'` when it exists.
Returns the trace of delete operations. -/
def cleanupFailed (failedDirs : List (List Char)) (ex : List Char → Bool) : List FSOp :=
  (failedDirs.filter (fun d => ex (d ++ outTmpSuffix))).map
    (fun d => FSOp.rmTree (d ++ outTmpSuffix))

/-! ### Spec-side decomposition predicates for the classifier claim

These four predicates transcribe the specification's wording of the four
volume formats (§4.1) as decompositions of the filename, independently of
the classifier's matching strategy.  They are compared with
`is_volume_part` in the refinement theorem for the classifier. -/

/-- Spec reading of format 1: the filename contains the (lowercased)
double-extension token, followed by a purely numeric (nonempty) tail
reaching the end of the name. -/
def hasFmt1 (tok f : List Char) : Prop :=
  ∃ B T D, f = B ++ T ++ D ∧ pyLower T = tok ∧ D ≠ [] ∧ ∀ c ∈ D, c.isDigit = true

/-- Spec reading of format 2: `<base>.part<digits>.<rar|zip|7z>`,
case-insensitive, with nonempty base and digit group. -/
def hasFmt2 (f : List Char) : Prop :=
  ∃ B P D E, f = B ++ P ++ D ++ E ∧ B ≠ [] ∧
    pyLower P = ['.', 'p', 'a', 'r', 't'] ∧ D ≠ [] ∧ (∀ c ∈ D, c.isDigit = true) ∧
    (pyLower E = ['.', 'r', 'a', 'r'] ∨ pyLower E = ['.', 'z', 'i', 'p'] ∨
      pyLower E = ['.', '7', 'z'])

/-- Spec reading of format 3: `<base>.z<digits>`, case-insensitive, with
nonempty base and digit tail reaching the end of the name. -/
def hasFmt3 (f : List Char) : Prop :=
  ∃ B Z D, f = B ++ Z ++ D ∧ B ≠ [] ∧ pyLower Z = ['.', 'z'] ∧ D ≠ [] ∧
    ∀ c ∈ D, c.isDigit = true

/-- Spec reading of format 4: the filename ends in a dot followed by
exactly three digits. -/
def hasFmt4 (f : List Char) : Prop :=
  ∃ B D, f = B ++ '.' :: D ∧ D.length = 3 ∧ ∀ c ∈ D, c.isDigit = true

/-! ### Basic lemmas about the string model -/

lemma pyLowerChar_cases (c : Char) :
    pyLowerChar c = c ∨ ('a' ≤ pyLowerChar c ∧ pyLowerChar c ≤ 'z') := by
  unfold pyLowerChar
  cases h : upperLowerTable.find? (fun q => q.1 == c) with
  | none => left; rfl
  | some q =>
    right
    have hmem := List.mem_of_find?_eq_some h
    have hall : ∀ q ∈ upperLowerTable, 'a' ≤ q.2 ∧ q.2 ≤ 'z' := by decide
    exact hall q hmem

lemma pyLowerChar_fix {c t : Char} (h : pyLowerChar c = t)
    (ht : ¬('a' ≤ t ∧ t ≤ 'z')) : c = t := by
  rcases pyLowerChar_cases c with hc | hc
  · rw [hc] at h; exact h
  · rw [h] at hc; exact absurd hc ht

lemma isDigit_pyLowerChar (c : Char) : (pyLowerChar c).isDigit = c.isDigit := by
  unfold pyLowerChar
  cases h : upperLowerTable.find? (fun q => q.1 == c) with
  | none => rfl
  | some q =>
    have hmem := List.mem_of_find?_eq_some h
    have hq := List.find?_some h
    have hc : q.1 = c := by simpa using hq
    have hall : ∀ q ∈ upperLowerTable, q.2.isDigit = q.1.isDigit := by decide
    rw [hall q hmem, hc]

lemma pyLowerChar_eq_dot {c : Char} (h : pyLowerChar c = '.') : c = '.' :=
  pyLowerChar_fix h (by decide)

lemma pyLowerChar_eq_slash {c : Char} (h : pyLowerChar c = '/') : c = '/' :=
  pyLowerChar_fix h (by decide)

lemma pyLower_append (a b : List Char) : pyLower (a ++ b) = pyLower a ++ pyLower b :=
  List.map_append pyLowerChar a b

lemma pyLower_length (s : List Char) : (pyLower s).length = s.length :=
  List.length_map s pyLowerChar

lemma isPrefixOf_iff {p s : List Char} : p.isPrefixOf s = true ↔ ∃ t, s = p ++ t := by
  induction p generalizing s with
  | nil => simp [List.isPrefixOf]
  | cons a as ih =>
    cases s with
    | nil => simp [List.isPrefixOf]
    | cons b bs =>
      simp only [List.isPrefixOf, Bool.and_eq_true, beq_iff_eq, ih]
      constructor
      · rintro ⟨rfl, t, rfl⟩; exact ⟨t, rfl⟩
      · rintro ⟨t, ht⟩
        rw [List.cons_append] at ht
        injection ht with h1 h2
        exact ⟨h1.symm, t, h2⟩

lemma endswithL_iff {suf s : List Char} : endswithL suf s = true ↔ ∃ t, s = t ++ suf := by
  unfold endswithL
  rw [isPrefixOf_iff]
  constructor
  · rintro ⟨t, ht⟩
    refine ⟨t.reverse, ?_⟩
    have := congrArg List.reverse ht
    simpa using this
  · rintro ⟨t, rfl⟩
    exact ⟨t.reverse, by simp⟩

lemma takeWhile_append_all {p : Char → Bool} {A B : List Char}
    (hA : ∀ x ∈ A, p x = true) (hB : ∀ h, B.head? = some h → p h = false) :
    (A ++ B).takeWhile p = A := by
  induction A with
  | nil =>
    cases B with
    | nil => rfl
    | cons b bs => simp [List.takeWhile_cons, hB b rfl]
  | cons a as ih =>
    simp only [List.cons_append, List.takeWhile_cons, hA a (by simp), if_true]
    rw [ih (fun x hx => hA x (by simp [hx]))]

lemma findMaxBelow_some {p : Nat → Bool} {b i : Nat} (h : findMaxBelow p b = some i) :
    p i = true ∧ i < b ∧ ∀ j, i < j → j < b → p j = false := by
  induction b with
  | zero => simp [findMaxBelow] at h
  | succ n ih =>
    unfold findMaxBelow at h
    by_cases hn : p n = true
    · rw [if_pos hn] at h
      injection h with h
      subst h
      exact ⟨hn, Nat.lt_succ_self _, fun j h1 h2 => absurd h2 (by omega)⟩
    · rw [if_neg hn] at h
      obtain ⟨h1, h2, h3⟩ := ih h
      refine ⟨h1, by omega, fun j hj1 hj2 => ?_⟩
      rcases Nat.lt_or_ge j n with hj | hj
      · exact h3 j hj1 hj
      · have : j = n := by omega
        subst this
        exact Bool.eq_false_iff.mpr hn

lemma findMaxBelow_none {p : Nat → Bool} {b : Nat} (h : findMaxBelow p b = none) :
    ∀ j, j < b → p j = false := by
  induction b with
  | zero => omega
  | succ n ih =>
    unfold findMaxBelow at h
    by_cases hn : p n = true
    · rw [if_pos hn] at h; exact absurd h (by simp)
    · rw [if_neg hn] at h
      intro j hj
      rcases Nat.lt_or_ge j n with hj2 | hj2
      · exact ih h j hj2
      · have : j = n := by omega
        subst this
        exact Bool.eq_false_iff.mpr hn

lemma findMaxBelow_intro {p : Nat → Bool} {b i : Nat} (hp : p i = true) (hib : i < b)
    (hmax : ∀ j, i < j → j < b → p j = false) : findMaxBelow p b = some i := by
  induction b with
  | zero => omega
  | succ n ih =>
    unfold findMaxBelow
    by_cases hn : p n = true
    · rw [if_pos hn]
      rcases Nat.lt_or_ge i n with hi | hi
      · exact absurd hn (by rw [hmax n hi (Nat.lt_succ_self _)]; simp)
      · have : i = n := by omega
        rw [this]
    · rw [if_neg hn]
      have hin : i ≠ n := fun hc => hn (hc ▸ hp)
      exact ih (by omega) (fun j h1 h2 => hmax j h1 (by omega))

lemma find?_congr {p q : List Char → Bool} {l : List (List Char)}
    (h : ∀ x ∈ l, p x = q x) : l.find? p = l.find? q := by
  induction l with
  | nil => rfl
  | cons a as ih =>
    rw [List.find?_cons, List.find?_cons, h a (by simp)]
    split
    · rfl
    · exact ih (fun x hx => h x (by simp [hx]))

/-! ### Lemmas about the executor's operation interpreter -/

lemma runOps_none (i : Nat) (ops : List FSOp) :
    runOps none i ops = (ops, true, i + ops.length) := by
  induction ops generalizing i with
  | nil => simp [runOps]
  | cons op rest ih =>
    show (if opRaises none i then _ else _) = _
    rw [if_neg (by simp [opRaises])]
    rw [ih (i + 1)]
    simp only [List.length_cons]
    refine congrArg (fun m => (op :: rest, true, m)) ?_
    omega

lemma runOps_ok_result {r : Option Nat} {i : Nat} {ops : List FSOp}
    (h : (runOps r i ops).2.1 = true) :
    (runOps r i ops).1 = ops ∧ (runOps r i ops).2.2 = i + ops.length := by
  induction ops generalizing i with
  | nil => simp [runOps]
  | cons op rest ih =>
    by_cases hr : opRaises r i = true
    · rw [show runOps r i (op :: rest) = ([], false, i) from by
        show (if opRaises r i then _ else _) = _
        rw [if_pos hr]] at h
      simp at h
    · have hstep : runOps r i (op :: rest) =
          (op :: (runOps r (i + 1) rest).1, (runOps r (i + 1) rest).2.1,
            (runOps r (i + 1) rest).2.2) := by
        show (if opRaises r i then _ else _) = _
        rw [if_neg hr]
      rw [hstep] at h ⊢
      obtain ⟨h1, h2⟩ := ih (h := h)
      refine ⟨by rw [h1], by rw [h2]; simp; omega⟩

lemma runOps_trace_take (r : Option Nat) (i : Nat) (ops : List FSOp) :
    ∃ k, (runOps r i ops).1 = ops.take k := by
  induction ops generalizing i with
  | nil => exact ⟨0, rfl⟩
  | cons op rest ih =>
    by_cases hr : opRaises r i = true
    · refine ⟨0, ?_⟩
      show (if opRaises r i then (([] : List FSOp), false, i) else _).1 = _
      rw [if_pos hr]
      rfl
    · obtain ⟨k, hk⟩ := ih (i + 1)
      refine ⟨k + 1, ?_⟩
      show (if opRaises r i then (([] : List FSOp), false, i) else _).1 = _
      rw [if_neg hr]
      simpa using hk

lemma runOps_ok_iff (r : Option Nat) (i : Nat) (ops : List FSOp) :
    (runOps r i ops).2.1 = true ↔ ∀ k, r = some k → k < i ∨ i + ops.length ≤ k := by
  induction ops generalizing i with
  | nil =>
    simp only [runOps, List.length_nil]
    constructor
    · intro _ k _; omega
    · intro _; trivial
  | cons op rest ih =>
    by_cases hr : opRaises r i = true
    · rw [show runOps r i (op :: rest) = ([], false, i) from by
        show (if opRaises r i then _ else _) = _
        rw [if_pos hr]]
      simp only [List.length_cons]
      constructor
      · intro h; simp at h
      · intro h
        cases r with
        | none => simp [opRaises] at hr
        | some k =>
          have : i = k := by simpa [opRaises] using hr
          subst this
          rcases h i rfl with h2 | h2 <;> omega
    · rw [show runOps r i (op :: rest) =
          (op :: (runOps r (i + 1) rest).1, (runOps r (i + 1) rest).2.1,
            (runOps r (i + 1) rest).2.2) from by
        show (if opRaises r i then _ else _) = _
        rw [if_neg hr]]
      simp only [List.length_cons]
      rw [show ((op :: (runOps r (i + 1) rest).1, (runOps r (i + 1) rest).2.1,
          (runOps r (i + 1) rest).2.2) : List FSOp × Bool × Nat).2.1 =
            (runOps r (i + 1) rest).2.1 from rfl]
      rw [ih (i + 1)]
      constructor
      · intro h k hk
        have hik : i ≠ k := by
          intro hc
          subst hc
          simp [opRaises, hk] at hr
        rcases h k hk with h2 | h2 <;> omega
      · intro h k hk
        rcases h k hk with h2 | h2
        · left; omega
        · right; omega

lemma take_eq_full_of_mem_last {pre : List FSOp} {rn wr : FSOp} :
    ∀ {k : Nat}, wr ∈ (pre ++ [rn, wr]).take k → wr ∉ pre → wr ≠ rn →
      (pre ++ [rn, wr]).take k = pre ++ [rn, wr] := by
  induction pre with
  | nil =>
    intro k hmem _ hrn
    match k, hmem with
    | 1, hmem => simp at hmem; exact absurd hmem hrn
    | (n + 2), _ => simp
  | cons p ps ih =>
    intro k hmem hpre hrn
    match k, hmem with
    | (n + 1), hmem =>
      simp only [List.cons_append, List.take_succ_cons] at hmem ⊢
      rcases List.mem_cons.mp hmem with h | h
      · exact absurd h.symm (fun hc => hpre (by simp [hc.symm]))
      · rw [ih h (fun hc => hpre (by simp [hc])) hrn]

lemma execPreOps_length (env : ExecEnv) (tmp : List Char) :
    (execPreOps env tmp).length = if env.tmpExists then 2 else 1 := by
  unfold execPreOps
  by_cases h : env.tmpExists <;> simp [h]

lemma execPostOps_length (env : ExecEnv) (e tmp : List Char) :
    (execPostOps env e tmp).length = if env.extractExists then 3 else 2 := by
  unfold execPostOps
  by_cases h : env.extractExists <;> simp [h]

lemma execPreOps_mem {env : ExecEnv} {tmp : List Char} {op : FSOp}
    (h : op ∈ execPreOps env tmp) : op = FSOp.rmTree tmp ∨ op = FSOp.makeDirs tmp := by
  unfold execPreOps at h
  by_cases he : env.tmpExists <;> simp [he] at h <;> tauto

/-- The result of `decompress_archive_with_7z` on the nonzero-exit-code
branch, given that the preparatory operations succeeded. -/
lemma decompress_fail_eq {env : ExecEnv} {a e rc stderr}
    (htool : env.tool = ToolOutcome.completes rc stderr) (hrc : rc ≠ 0)
    (hok : (runOps env.raiseAt 0 (execPreOps env (e ++ outTmpSuffix))).2.1 = true) :
    decompress_archive_with_7z env a e =
      ⟨false, execPreOps env (e ++ outTmpSuffix),
        if stderr = [] then none else some stderr⟩ := by
  simp only [decompress_archive_with_7z]
  rw [hok]
  simp only [Bool.not_true, Bool.false_eq_true, if_false]
  rw [htool]
  simp only [hrc, if_neg hrc]
  rw [(runOps_ok_result hok).1]
  simp

/-- The result of `decompress_archive_with_7z` when a preparatory
filesystem operation raises. -/
lemma decompress_preFail_eq {env : ExecEnv} (a e : List Char)
    (hf : (runOps env.raiseAt 0 (execPreOps env (e ++ outTmpSuffix))).2.1 = false) :
    decompress_archive_with_7z env a e =
      ⟨false, (runOps env.raiseAt 0 (execPreOps env (e ++ outTmpSuffix))).1, none⟩ := by
  simp only [decompress_archive_with_7z]
  rw [hf]
  simp

/-- The result of `decompress_archive_with_7z` when the tool binary is
absent (`FileNotFoundError`), given the preparatory operations ran. -/
lemma decompress_notFound_eq {env : ExecEnv} (a e : List Char)
    (htool : env.tool = ToolOutcome.raisesNotFound)
    (hok : (runOps env.raiseAt 0 (execPreOps env (e ++ outTmpSuffix))).2.1 = true) :
    decompress_archive_with_7z env a e =
      ⟨false, execPreOps env (e ++ outTmpSuffix), none⟩ := by
  simp only [decompress_archive_with_7z]
  rw [hok]
  simp only [Bool.not_true, Bool.false_eq_true, if_false]
  rw [htool, (runOps_ok_result hok).1]

/-- The result of `decompress_archive_with_7z` on the exit-code-zero
branch, given the preparatory operations succeeded. -/
lemma decompress_zero_eq {env : ExecEnv} {a e stderr}
    (htool : env.tool = ToolOutcome.completes 0 stderr)
    (hok : (runOps env.raiseAt 0 (execPreOps env (e ++ outTmpSuffix))).2.1 = true) :
    decompress_archive_with_7z env a e =
      ⟨(runOps env.raiseAt (execPreOps env (e ++ outTmpSuffix)).length
          (execPostOps env e (e ++ outTmpSuffix))).2.1,
        execPreOps env (e ++ outTmpSuffix) ++
          (runOps env.raiseAt (execPreOps env (e ++ outTmpSuffix)).length
            (execPostOps env e (e ++ outTmpSuffix))).1,
        none⟩ := by
  simp only [decompress_archive_with_7z]
  rw [hok]
  simp only [Bool.not_true, Bool.false_eq_true, if_false]
  rw [htool]
  simp only [if_pos rfl]
  rw [(runOps_ok_result hok).1, (runOps_ok_result hok).2]
  simp

/-! ### Claims about the Extraction Executor -/

/-- C10: the Extraction Executor is total at its interface: the
embedding returns a plain `DecompResult` on every input (never an
exception), and it reports success exactly when the external tool
completed with exit code 0 and no filesystem operation of the commit
protocol raised.  Consequently every error — the 7z binary being absent,
a nonzero exit code, or any filesystem fault during temp-directory
cleanup, rename, or marker writing — is reported as a `false` result. -/
theorem claim_C10_executor_totality (env : ExecEnv) (a e : List Char) :
    (decompress_archive_with_7z env a e).success = true ↔
      ((∃ err, env.tool = ToolOutcome.completes 0 err) ∧
        ∀ k, env.raiseAt = some k →
          (if env.tmpExists then 2 else 1) + (if env.extractExists then 3 else 2) ≤ k) := by
  set tmp := e ++ outTmpSuffix with htmp
  by_cases h1 : (runOps env.raiseAt 0 (execPreOps env tmp)).2.1 = true
  · have hpre := (runOps_ok_iff env.raiseAt 0 (execPreOps env tmp)).mp h1
    cases htool : env.tool with
    | raisesNotFound =>
      rw [decompress_notFound_eq a e htool h1]
      constructor
      · intro h; simp at h
      · rintro ⟨⟨err, herr⟩, -⟩; simp at herr
    | completes rc stderr =>
      by_cases hrc : rc = 0
      · subst hrc
        rw [decompress_zero_eq htool h1]
        show (runOps env.raiseAt (execPreOps env tmp).length (execPostOps env e tmp)).2.1
            = true ↔ _
        rw [runOps_ok_iff]
        rw [execPreOps_length, execPostOps_length]
        constructor
        · intro h
          refine ⟨⟨stderr, rfl⟩, fun k hk => ?_⟩
          have hk1 := hpre k hk
          have hk2 := h k hk
          rw [execPreOps_length] at hk1
          rcases hk1 with h | h
          · omega
          · rcases hk2 with h2 | h2 <;> omega
        · rintro ⟨-, hfault⟩ k hk
          have := hfault k hk
          right
          omega
      · rw [decompress_fail_eq htool hrc h1]
        constructor
        · intro h; simp at h
        · rintro ⟨⟨err, herr⟩, -⟩
          injection herr with h2 h3
          exact absurd h2 hrc
  · have h1f : (runOps env.raiseAt 0 (execPreOps env tmp)).2.1 = false :=
      Bool.eq_false_iff.mpr h1
    rw [decompress_preFail_eq a e h1f]
    constructor
    · intro h; simp at h
    · rintro ⟨-, hfault⟩
      exfalso
      apply h1
      rw [runOps_ok_iff]
      intro k hk
      have := hfault k hk
      rw [execPreOps_length] at *
      right
      omega

/-- C1: on a nonzero exit code of the external tool the Extraction
Executor returns failure; the diagnostic it surfaces is exactly the
tool's captured stderr (printed when nonempty); every filesystem
operation it performed targets only the temp directory
`extractDir ++ ".out_tmp"` (which differs from `extractDir` itself), so
`extractDir` is never touched and the Completion Marker is never
written; and with no filesystem fault the trace ends by creating the
temp directory, which is left on disk. -/
theorem claim_C1_fail_leaves_tmp_only (env : ExecEnv) (a e : List Char) (rc : Nat)
    (stderr : List Char) (htool : env.tool = ToolOutcome.completes rc stderr)
    (hrc : rc ≠ 0) :
    (decompress_archive_with_7z env a e).success = false ∧
    e ++ outTmpSuffix ≠ e ∧
    (∀ op ∈ (decompress_archive_with_7z env a e).trace,
      op = FSOp.rmTree (e ++ outTmpSuffix) ∨ op = FSOp.makeDirs (e ++ outTmpSuffix)) ∧
    (∀ c, FSOp.writeFile (pyJoin e markerName) c ∉
      (decompress_archive_with_7z env a e).trace) ∧
    FSOp.rmTree e ∉ (decompress_archive_with_7z env a e).trace ∧
    (env.raiseAt = none →
      (decompress_archive_with_7z env a e).diag =
          (if stderr = [] then none else some stderr) ∧
      (decompress_archive_with_7z env a e).trace =
        (if env.tmpExists then [FSOp.rmTree (e ++ outTmpSuffix)] else []) ++
          [FSOp.makeDirs (e ++ outTmpSuffix)]) := by
  set tmp := e ++ outTmpSuffix with htmp
  have htmpne : tmp ≠ e := by
    intro hc
    have := congrArg List.length hc
    simp [htmp, outTmpSuffix] at this
  have hframe : ∀ op ∈ (decompress_archive_with_7z env a e).trace,
      op = FSOp.rmTree tmp ∨ op = FSOp.makeDirs tmp := by
    intro op hop
    by_cases h1 : (runOps env.raiseAt 0 (execPreOps env tmp)).2.1 = true
    · rw [decompress_fail_eq htool hrc h1] at hop
      exact execPreOps_mem hop
    · rw [decompress_preFail_eq a e (Bool.eq_false_iff.mpr h1)] at hop
      obtain ⟨k, hk⟩ := runOps_trace_take env.raiseAt 0 (execPreOps env tmp)
      rw [hk] at hop
      exact execPreOps_mem (List.mem_of_mem_take hop)
  refine ⟨?_, htmpne, hframe, ?_, ?_, ?_⟩
  · by_cases h1 : (runOps env.raiseAt 0 (execPreOps env tmp)).2.1 = true
    · rw [decompress_fail_eq htool hrc h1]
    · rw [decompress_preFail_eq a e (Bool.eq_false_iff.mpr h1)]
  · intro c hmem
    rcases hframe _ hmem with h | h <;> simp at h
  · intro hmem
    rcases hframe _ hmem with h | h
    · exact htmpne (by injection h with h2; exact h2.symm) |>.elim
    · simp at h
  · intro hnone
    have h1 : (runOps env.raiseAt 0 (execPreOps env tmp)).2.1 = true := by
      rw [hnone, runOps_none]
    rw [decompress_fail_eq htool hrc h1]
    exact ⟨rfl, rfl⟩

/-- C1 witness: a concrete failing run (exit code 2, no pre-existing
directories, no filesystem fault). -/
theorem claim_C1_fail_leaves_tmp_only_witness :
    (decompress_archive_with_7z ⟨false, false, ToolOutcome.completes 2 "err".toList, none⟩
      "/d/x.zip".toList "/o/x".toList).success = false ∧
    (decompress_archive_with_7z ⟨false, false, ToolOutcome.completes 2 "err".toList, none⟩
      "/d/x.zip".toList "/o/x".toList).trace =
        [FSOp.makeDirs ("/o/x".toList ++ outTmpSuffix)] :=
  ⟨(claim_C1_fail_leaves_tmp_only ⟨false, false, ToolOutcome.completes 2 "err".toList, none⟩
      "/d/x.zip".toList "/o/x".toList 2 "err".toList rfl (by decide)).1,
   by
    have h := (claim_C1_fail_leaves_tmp_only
      ⟨false, false, ToolOutcome.completes 2 "err".toList, none⟩
      "/d/x.zip".toList "/o/x".toList 2 "err".toList rfl (by decide)).2.2.2.2.2 rfl
    simpa using h.2⟩

/-- C2: on exit code 0 the Extraction Executor performs, in order:
removal of a pre-existing `extractDir` (when present), the rename of the
temp directory onto `extractDir`, and only then the write of the
Completion Marker inside `extractDir`; moreover on every run (under any
filesystem-fault pattern) the marker write can appear in the executed
trace only immediately after a completed rename, so the marker's
presence implies the rename of the fully-populated temp directory
already happened. -/
theorem claim_C2_commit_order (env : ExecEnv) (a e : List Char) (stderr : List Char)
    (htool : env.tool = ToolOutcome.completes 0 stderr) :
    (env.raiseAt = none →
      (decompress_archive_with_7z env a e).success = true ∧
      (decompress_archive_with_7z env a e).trace =
        (if env.tmpExists then [FSOp.rmTree (e ++ outTmpSuffix)] else []) ++
          [FSOp.makeDirs (e ++ outTmpSuffix)] ++
          (if env.extractExists then [FSOp.rmTree e] else []) ++
          [FSOp.rename (e ++ outTmpSuffix) e,
           FSOp.writeFile (pyJoin e markerName) doneContent]) ∧
    (∀ c, FSOp.writeFile (pyJoin e markerName) c ∈
        (decompress_archive_with_7z env a e).trace →
      ∃ l, (decompress_archive_with_7z env a e).trace =
        l ++ [FSOp.rename (e ++ outTmpSuffix) e, FSOp.writeFile (pyJoin e markerName) c]) := by
  set tmp := e ++ outTmpSuffix with htmp
  constructor
  · intro hnone
    have h1 : (runOps env.raiseAt 0 (execPreOps env tmp)).2.1 = true := by
      rw [hnone, runOps_none]
    rw [decompress_zero_eq htool h1]
    rw [hnone, runOps_none]
    refine ⟨rfl, ?_⟩
    show execPreOps env tmp ++ execPostOps env e tmp = _
    unfold execPreOps execPostOps
    simp [List.append_assoc]
  · intro c hmem
    by_cases h1 : (runOps env.raiseAt 0 (execPreOps env tmp)).2.1 = true
    · rw [decompress_zero_eq htool h1] at hmem ⊢
      simp only at hmem ⊢
      rcases List.mem_append.mp hmem with hpre | hpost
      · rcases execPreOps_mem hpre with h | h <;> simp at h
      · obtain ⟨k, hk⟩ := runOps_trace_take env.raiseAt (execPreOps env tmp).length
          (execPostOps env e tmp)
        rw [hk] at hpost ⊢
        have hcontent : c = doneContent := by
          have hmem2 := List.mem_of_mem_take hpost
          unfold execPostOps at hmem2
          rcases List.mem_append.mp hmem2 with h | h
          · by_cases hee : env.extractExists <;> simp [hee] at h
          · rcases List.mem_cons.mp h with h | h
            · simp at h
            · rcases List.mem_cons.mp h with h | h
              · rw [FSOp.writeFile.injEq] at h
                exact h.2
              · simp at h
        subst hcontent
        have hfull : (execPostOps env e tmp).take k = execPostOps env e tmp := by
          apply @take_eq_full_of_mem_last
            (if env.extractExists then [FSOp.rmTree e] else []) (FSOp.rename tmp e) _ _
          · show FSOp.writeFile (pyJoin e markerName) doneContent ∈
              ((if env.extractExists then [FSOp.rmTree e] else []) ++
                [FSOp.rename tmp e, FSOp.writeFile (pyJoin e markerName) doneContent]).take k
            exact hpost
          · by_cases hee : env.extractExists <;> simp [hee]
          · simp
        rw [hfull]
        refine ⟨execPreOps env tmp ++ (if env.extractExists then [FSOp.rmTree e] else []), ?_⟩
        show execPreOps env tmp ++ execPostOps env e tmp = _
        unfold execPostOps
        simp [List.append_assoc]
    · rw [decompress_preFail_eq a e (Bool.eq_false_iff.mpr h1)] at hmem
      obtain ⟨k, hk⟩ := runOps_trace_take env.raiseAt 0 (execPreOps env tmp)
      simp only at hmem
      rw [hk] at hmem
      rcases execPreOps_mem (List.mem_of_mem_take hmem) with h | h <;> simp at h

/-- C2 witness: a concrete successful run with a stale `extractDir`
present; the trace is exactly delete-old, rename, write-marker after the
temp-directory preparation. -/
theorem claim_C2_commit_order_witness :
    (decompress_archive_with_7z ⟨false, true, ToolOutcome.completes 0 [], none⟩
      "/d/x.zip".toList "/o/x".toList).success = true ∧
    (decompress_archive_with_7z ⟨false, true, ToolOutcome.completes 0 [], none⟩
      "/d/x.zip".toList "/o/x".toList).trace =
      [FSOp.makeDirs ("/o/x".toList ++ outTmpSuffix), FSOp.rmTree "/o/x".toList,
       FSOp.rename ("/o/x".toList ++ outTmpSuffix) "/o/x".toList,
       FSOp.writeFile (pyJoin "/o/x".toList markerName) doneContent] := by
  have h := (claim_C2_commit_order ⟨false, true, ToolOutcome.completes 0 [], none⟩
    "/d/x.zip".toList "/o/x".toList [] rfl).1 rfl
  exact ⟨h.1, by simpa using h.2⟩

/-! ### Claims about cleanup and the First-Volume Resolver -/

/-- C9 counterexample: the Job Builder can produce two jobs whose
directories alias — extraction of `A.zip` goes to `/o/A` while
`A.out_tmp.zip` goes to `/o/A.out_tmp` — and when the first job fails
and the second succeeds, the confirmed cleanup step deletes
`/o/A + ".out_tmp" = /o/A.out_tmp`, which is exactly the successful
job's extraction directory.  Hence cleanup is not guaranteed to spare
every successful job's directory, refuting the claim as stated. -/
theorem claim_C9_counterexample :
    (scanDir ⟨"/d".toList, "/o".toList, fun _ => false⟩
        ["A.zip".toList, "A.out_tmp.zip".toList]).jobs =
      [⟨"/d/A.zip".toList, "/o/A".toList, false, "A.zip".toList⟩,
       ⟨"/d/A.out_tmp.zip".toList, "/o/A.out_tmp".toList, false, "A.out_tmp.zip".toList⟩] ∧
    cleanupFailed ["/o/A".toList] (fun _ => true) = [FSOp.rmTree "/o/A.out_tmp".toList] := by
  exact ⟨rfl, rfl⟩

/-- C9 (amended): the confirmed cleanup step deletes only directories
whose path equals a failed job's `extractDir` plus the fixed `.out_tmp`
suffix and which exist on disk; such a path never equals that same job's
`extractDir`.  (A directory of a different, successful job is affected
only in the aliasing case where its path textually equals some failed
`extractDir + ".out_tmp"`, as the counterexample shows.) -/
theorem claim_C9_cleanup_targets (failedDirs : List (List Char)) (ex : List Char → Bool) :
    ∀ op ∈ cleanupFailed failedDirs ex,
      ∃ d ∈ failedDirs, op = FSOp.rmTree (d ++ outTmpSuffix) ∧
        ex (d ++ outTmpSuffix) = true ∧ d ++ outTmpSuffix ≠ d := by
  intro op hop
  unfold cleanupFailed at hop
  obtain ⟨d, hd, hmap⟩ := List.mem_map.mp hop
  have hdmem := List.mem_filter.mp hd
  refine ⟨d, hdmem.1, hmap.symm, by simpa using hdmem.2, ?_⟩
  intro hc
  have hlen := congrArg List.length hc
  simp [outTmpSuffix] at hlen

/-- C9 witness: applying the cleanup-target theorem to a concrete failed
job list. -/
theorem claim_C9_cleanup_targets_witness :
    ∃ d ∈ ["/o/A".toList],
      FSOp.rmTree ("/o/A".toList ++ outTmpSuffix) = FSOp.rmTree (d ++ outTmpSuffix) ∧
      (fun (_ : List Char) => true) (d ++ outTmpSuffix) = true ∧
      d ++ outTmpSuffix ≠ d :=
  claim_C9_cleanup_targets ["/o/A".toList] (fun _ => true)
    (FSOp.rmTree ("/o/A".toList ++ outTmpSuffix))
    (by
      rw [show cleanupFailed ["/o/A".toList] (fun _ => true) =
        [FSOp.rmTree ("/o/A".toList ++ outTmpSuffix)] from rfl]
      exact List.mem_singleton.mpr rfl)

/-- C6: resolver correctness on the documented scenario.  For input
`photo.part03.rar`, when `photo.part01.rar` exists in the directory the
resolver returns its path (it is the first candidate tried); when
neither first-volume candidate (`photo.part01.rar`, `photo.part1.rar`)
exists, the resolver returns the input path unchanged. -/
theorem claim_C6_resolver (dir : List Char) (ex : List Char → Bool) :
    (ex (pyJoin dir "photo.part01.rar".toList) = true →
      get_first_volume (pyJoin dir "photo.part03.rar".toList) "photo.part03.rar".toList
          dir ex = pyJoin dir "photo.part01.rar".toList) ∧
    (ex (pyJoin dir "photo.part01.rar".toList) = false →
      ex (pyJoin dir "photo.part1.rar".toList) = false →
      get_first_volume (pyJoin dir "photo.part03.rar".toList) "photo.part03.rar".toList
          dir ex = pyJoin dir "photo.part03.rar".toList) := by
  have hred : get_first_volume (pyJoin dir "photo.part03.rar".toList)
      "photo.part03.rar".toList dir ex =
      match ["photo.part01.rar".toList, "photo.part1.rar".toList].find?
          (fun c => ex (pyJoin dir c)) with
      | some c => pyJoin dir c
      | none => pyJoin dir "photo.part03.rar".toList := rfl
  rw [hred]
  constructor
  · intro h1
    simp only [List.find?_cons]
    rw [h1]
  · intro h1 h2
    simp only [List.find?_cons]
    rw [h1, h2]
    rfl

/-- C6 witness: the two scenarios at a concrete directory. -/
theorem claim_C6_resolver_witness :
    get_first_volume ("/d/photo.part03.rar".toList) "photo.part03.rar".toList "/d".toList
        (fun p => p == "/d/photo.part01.rar".toList) = "/d/photo.part01.rar".toList ∧
    get_first_volume ("/d/photo.part03.rar".toList) "photo.part03.rar".toList "/d".toList
        (fun _ => false) = "/d/photo.part03.rar".toList :=
  ⟨(claim_C6_resolver "/d".toList (fun p => p == "/d/photo.part01.rar".toList)).1 rfl,
   (claim_C6_resolver "/d".toList (fun _ => false)).2 rfl rfl⟩

/-! ### Claims about the Job Builder's candidacy test -/

lemma fmt4Check_false_of_not_volume {f : List Char} (h : (is_volume_part f).1 = false) :
    fmt4Check (pyLower f) = false := by
  simp only [is_volume_part] at h
  split at h
  · simp at h
  · split at h
    · simp at h
    · split at h
      · simp at h
      · by_cases h4 : fmt4Check (pyLower f) = true
        · rw [if_pos h4] at h; simp at h
        · exact Bool.eq_false_iff.mpr h4

/-- C7 counterexample: `foo.zip.backup` neither ends in a recognized
archive extension nor is volume-classified, yet the Job Builder does not
ignore it — it builds a job for it (the `.zip.` token admits it as an
archive candidate).  Likewise the literal name `.z01` is admitted (via
the two-digit `.z` suffix test) without being volume-classified. -/
theorem claim_C7_counterexample :
    (endswithL ".zip".toList (pyLower "foo.zip.backup".toList) = false ∧
     endswithL ".7z".toList (pyLower "foo.zip.backup".toList) = false ∧
     endswithL ".rar".toList (pyLower "foo.zip.backup".toList) = false ∧
     (is_volume_part "foo.zip.backup".toList).1 = false) ∧
    (scanDir ⟨"/d".toList, "/o".toList, fun _ => false⟩ ["foo.zip.backup".toList]).ignored
        = 0 ∧
    (scanDir ⟨"/d".toList, "/o".toList, fun _ => false⟩
        ["foo.zip.backup".toList]).jobs.length = 1 ∧
    (endswithL ".zip".toList (pyLower ".z01".toList) = false ∧
     endswithL ".7z".toList (pyLower ".z01".toList) = false ∧
     endswithL ".rar".toList (pyLower ".z01".toList) = false ∧
     (is_volume_part ".z01".toList).1 = false) ∧
    (scanDir ⟨"/d".toList, "/o".toList, fun _ => false⟩ [".z01".toList]).ignored = 0 ∧
    (scanDir ⟨"/d".toList, "/o".toList, fun _ => false⟩ [".z01".toList]).jobs.length = 1 := by
  exact ⟨⟨rfl, rfl, rfl, rfl⟩, rfl, rfl, ⟨rfl, rfl, rfl, rfl⟩, rfl, rfl⟩

/-- C7 (amended): a regular file whose name neither ends in a recognized
archive extension (`.zip`/`.7z`/`.rar`, case-insensitively), nor
contains a `.zip.`/`.7z.`/`.rar.` token, nor ends in `.z` plus two
digits `01`-`99`, nor is classified as a volume member, is ignored
entirely by the Job Builder: the scan step only increments the total and
ignored counters, so no `ExtractionJob` is ever built for it. -/
theorem claim_C7_nonarchive_ignored (env : ScanEnv) (st : ScanState) (f : List Char)
    (h1 : endswithL ".zip".toList (pyLower f) = false)
    (h2 : endswithL ".7z".toList (pyLower f) = false)
    (h3 : endswithL ".rar".toList (pyLower f) = false)
    (h4 : containsSub tokZip (pyLower f) = false)
    (h5 : containsSub tokSevenZ (pyLower f) = false)
    (h6 : containsSub tokRar (pyLower f) = false)
    (h7 : endsZ2 (pyLower f) = false)
    (h8 : (is_volume_part f).1 = false) :
    scanFile env st f = { st with total := st.total + 1, ignored := st.ignored + 1 } := by
  have hshow1 : ".zip".toList = ['.', 'z', 'i', 'p'] := rfl
  have hshow2 : ".7z".toList = ['.', '7', 'z'] := rfl
  have hshow3 : ".rar".toList = ['.', 'r', 'a', 'r'] := rfl
  rw [hshow1] at h1
  rw [hshow2] at h2
  rw [hshow3] at h3
  have harch : isArchiveName f = false := by
    simp only [isArchiveName]
    rw [h1, h2, h3, h4, h5, h6, h7, fmt4Check_false_of_not_volume h8]
    simp [h8]
  simp only [scanFile, harch]
  rfl

/-- C7 witness: the scan step applied to `notes.txt`. -/
theorem claim_C7_nonarchive_ignored_witness :
    scanFile ⟨"/d".toList, "/o".toList, fun _ => false⟩ initState "notes.txt".toList =
      { initState with total := initState.total + 1, ignored := initState.ignored + 1 } :=
  claim_C7_nonarchive_ignored ⟨"/d".toList, "/o".toList, fun _ => false⟩ initState
    "notes.txt".toList (by decide) (by decide) (by decide) (by decide) (by decide)
    (by decide) (by decide) (by decide)

/-! ### Length behavior of the Canonical-Name Normalizer stages

Each stage of `extractNameOf` either leaves its input unchanged or
strictly shortens it. -/

lemma length_take_sub_lt {m : List Char} {k : Nat} (h1 : 1 ≤ k) (h2 : k ≤ m.length) :
    (m.take (m.length - k)).length < m.length := by
  rw [List.length_take]
  omega

lemma stripExtOuter_cases (m : List Char) :
    stripExtOuter m = m ∨ (stripExtOuter m).length < m.length := by
  simp only [stripExtOuter]
  split_ifs with g1 g2
  · right
    rcases Bool.or_eq_true _ _ |>.mp g1 with g | g <;>
    · obtain ⟨t, ht⟩ := endswithL_iff.mp g
      have hlen := congrArg List.length ht
      rw [pyLower_length] at hlen
      simp at hlen
      exact length_take_sub_lt (by omega) (by omega)
  · right
    obtain ⟨t, ht⟩ := endswithL_iff.mp g2
    have hlen := congrArg List.length ht
    rw [pyLower_length] at hlen
    simp at hlen
    exact length_take_sub_lt (by omega) (by omega)
  · left; rfl

lemma stripExtOuter_strict {m : List Char}
    (h : endswithL ['.', 'r', 'a', 'r'] (pyLower m) = true ∨
      endswithL ['.', 'z', 'i', 'p'] (pyLower m) = true ∨
      endswithL ['.', '7', 'z'] (pyLower m) = true) :
    (stripExtOuter m).length < m.length := by
  simp only [stripExtOuter]
  split_ifs with g1 g2
  · rcases Bool.or_eq_true _ _ |>.mp g1 with g | g <;>
    · obtain ⟨t, ht⟩ := endswithL_iff.mp g
      have hlen := congrArg List.length ht
      rw [pyLower_length] at hlen
      simp at hlen
      exact length_take_sub_lt (by omega) (by omega)
  · obtain ⟨t, ht⟩ := endswithL_iff.mp g2
    have hlen := congrArg List.length ht
    rw [pyLower_length] at hlen
    simp at hlen
    exact length_take_sub_lt (by omega) (by omega)
  · exfalso
    rcases h with g | g | g
    · exact absurd (by rw [g]; rfl : (endswithL ['.', 'r', 'a', 'r'] (pyLower m) ||
        endswithL ['.', 'z', 'i', 'p'] (pyLower m)) = true) (by simpa using g1)
    · exact absurd (by rw [g]; simp : (endswithL ['.', 'r', 'a', 'r'] (pyLower m) ||
        endswithL ['.', 'z', 'i', 'p'] (pyLower m)) = true) (by simpa using g1)
    · exact absurd g (by simpa using g2)

lemma subPartTail_cases (m : List Char) :
    subPartTail m = m ∨ (subPartTail m).length < m.length := by
  simp only [subPartTail]
  split_ifs with g
  · right
    rw [Bool.and_eq_true] at g
    have hlen5 := congrArg List.length (of_decide_eq_true g.2)
    rw [pyLower_length] at hlen5
    simp only [List.length_take, List.length_drop, List.length_reverse,
      List.length_cons, List.length_nil] at hlen5
    set dl := (m.reverse.takeWhile (fun c => c.isDigit)).length with hdl
    have hm : dl + 5 ≤ m.length := by omega
    exact length_take_sub_lt (by omega) (by omega)
  · left; rfl

lemma subZTail_cases (m : List Char) :
    subZTail m = m ∨ (subZTail m).length < m.length := by
  simp only [subZTail]
  split_ifs with g
  · right
    rw [Bool.and_eq_true] at g
    have hlen2 := congrArg List.length (of_decide_eq_true g.2)
    rw [pyLower_length] at hlen2
    simp only [List.length_take, List.length_drop, List.length_reverse,
      List.length_cons, List.length_nil] at hlen2
    exact length_take_sub_lt (by omega) (by omega)
  · left; rfl

lemma subCompoundTail_cases (m : List Char) :
    subCompoundTail m = m ∨ (subCompoundTail m).length < m.length := by
  simp only [subCompoundTail]
  split_ifs with g1 g2 g3
  · right
    rw [Bool.and_eq_true] at g1
    have hl := congrArg List.length (of_decide_eq_true g1.2)
    rw [pyLower_length] at hl
    simp only [List.length_take, List.length_drop, List.length_reverse,
      List.length_cons, List.length_nil] at hl
    exact length_take_sub_lt (by omega) (by omega)
  · right
    rw [Bool.and_eq_true] at g2
    have hl := congrArg List.length (of_decide_eq_true g2.2)
    rw [pyLower_length] at hl
    simp only [List.length_take, List.length_drop, List.length_reverse,
      List.length_cons, List.length_nil] at hl
    exact length_take_sub_lt (by omega) (by omega)
  · right
    rw [Bool.and_eq_true] at g3
    have hl := congrArg List.length (of_decide_eq_true g3.2)
    rw [pyLower_length] at hl
    simp only [List.length_take, List.length_drop, List.length_reverse,
      List.length_cons, List.length_nil] at hl
    exact length_take_sub_lt (by omega) (by omega)
  · left; rfl

lemma fmt4Check_length {s : List Char} (h : fmt4Check s = true) : 4 ≤ s.length := by
  unfold fmt4Check at h
  split at h
  · next c1 c2 c3 c4 rest hrev =>
    have hlen := congrArg List.length hrev
    simp only [List.length_reverse, List.length_cons] at hlen
    omega
  · simp at h

lemma subDddTail_cases (m : List Char) :
    subDddTail m = m ∨ (subDddTail m).length < m.length := by
  unfold subDddTail
  split_ifs with g
  · right
    exact length_take_sub_lt (by omega) (fmt4Check_length g)
  · left; rfl

lemma subUZipTail_cases (m : List Char) :
    subUZipTail m = m ∨ (subUZipTail m).length < m.length := by
  simp only [subUZipTail]
  split_ifs with g
  · right
    have hl := congrArg List.length g
    rw [pyLower_length] at hl
    simp only [List.length_take, List.length_reverse, List.length_cons,
      List.length_nil] at hl
    exact length_take_sub_lt (by omega) (by omega)
  · left; rfl

lemma subPartTail_le (m : List Char) : (subPartTail m).length ≤ m.length := by
  rcases subPartTail_cases m with h | h
  · rw [h]
  · omega

lemma subZTail_le (m : List Char) : (subZTail m).length ≤ m.length := by
  rcases subZTail_cases m with h | h
  · rw [h]
  · omega

lemma subCompoundTail_le (m : List Char) : (subCompoundTail m).length ≤ m.length := by
  rcases subCompoundTail_cases m with h | h
  · rw [h]
  · omega

lemma subDddTail_le (m : List Char) : (subDddTail m).length ≤ m.length := by
  rcases subDddTail_cases m with h | h
  · rw [h]
  · omega

lemma subUZipTail_le (m : List Char) : (subUZipTail m).length ≤ m.length := by
  rcases subUZipTail_cases m with h | h
  · rw [h]
  · omega

/-- Once any stage of the normalizer strictly shortens, the final result
is strictly shorter than that stage's input. -/
lemma extractNameOf_lt_of_strip (m : List Char)
    (h : (stripExtOuter m).length < m.length) : (extractNameOf m).length < m.length := by
  unfold extractNameOf
  calc (subUZipTail (subDddTail (subCompoundTail (subZTail (subPartTail
          (stripExtOuter m)))))).length
      ≤ (subDddTail (subCompoundTail (subZTail (subPartTail (stripExtOuter m))))).length :=
        subUZipTail_le _
    _ ≤ (subCompoundTail (subZTail (subPartTail (stripExtOuter m)))).length :=
        subDddTail_le _
    _ ≤ (subZTail (subPartTail (stripExtOuter m))).length := subCompoundTail_le _
    _ ≤ (subPartTail (stripExtOuter m)).length := subZTail_le _
    _ ≤ (stripExtOuter m).length := subPartTail_le _
    _ < m.length := h

/-! ### Shape extraction from a positive volume classification -/

lemma pyLower_take (n : List Char) (k : Nat) : pyLower (n.take k) = (pyLower n).take k := by
  simp [pyLower, List.map_take]

lemma pyLower_drop (n : List Char) (k : Nat) : pyLower (n.drop k) = (pyLower n).drop k := by
  simp [pyLower, List.map_drop]

lemma pyLower_reverse (n : List Char) : pyLower n.reverse = (pyLower n).reverse := by
  simp [pyLower, List.map_reverse]

/-- Split a string according to a two-part decomposition of its
lowering. -/
lemma pyLower_decomp {n X Y : List Char} (h : pyLower n = X ++ Y) :
    n = n.take X.length ++ n.drop X.length ∧
    pyLower (n.take X.length) = X ∧ pyLower (n.drop X.length) = Y := by
  refine ⟨(List.take_append_drop _ _).symm, ?_, ?_⟩
  · rw [pyLower_take, h, List.take_left]
  · rw [pyLower_drop, h, List.drop_left]

lemma digits_of_pyLower {Dd t2 : List Char} (h : pyLower Dd = t2)
    (ht : pyIsDigitStr t2 = true) : Dd ≠ [] ∧ ∀ c ∈ Dd, c.isDigit = true := by
  unfold pyIsDigitStr at ht
  rw [Bool.and_eq_true] at ht
  constructor
  · intro hc
    subst hc
    have ht2 : t2 = [] := by simpa [pyLower] using h.symm
    rw [ht2] at ht
    simp at ht
  · intro c hc
    have hmem : pyLowerChar c ∈ t2 := by
      rw [← h]
      exact List.mem_map_of_mem _ hc
    have hd := List.all_eq_true.mp ht.2 _ hmem
    rw [← isDigit_pyLowerChar]
    exact hd

lemma endswith_of_drop_eq {s suf : List Char} {k : Nat} (h : s.drop k = suf) :
    endswithL suf s = true := by
  rw [endswithL_iff]
  exact ⟨s.take k, by rw [← h, List.take_append_drop]⟩

lemma endswith_mono_drop {s suf : List Char} {k : Nat}
    (h : endswithL suf (s.drop k) = true) : endswithL suf s = true := by
  rw [endswithL_iff] at h ⊢
  obtain ⟨t, ht⟩ := h
  exact ⟨s.take k ++ t, by rw [List.append_assoc, ← ht, List.take_append_drop]⟩

lemma orElse3_some {α : Type} {a b c : Option α} {v : α} (h : (a <|> b <|> c) = some v) :
    a = some v ∨ b = some v ∨ c = some v := by
  cases a <;> cases b <;> cases c <;> simp_all

/-- A successful format-1 probe exhibits the token-plus-digits shape of
the filename. -/
lemma fmt1Try_shape {n tok : List Char} {v : Nat × List Char}
    (h : fmt1Try n (pyLower n) tok = some v) :
    ∃ A T Dd, n = A ++ T ++ Dd ∧ pyLower T = tok ∧ Dd ≠ [] ∧
      ∀ c ∈ Dd, c.isDigit = true := by
  unfold fmt1Try at h
  cases hr : rfindSub tok (pyLower n) with
  | none => rw [hr] at h; simp at h
  | some idx =>
    rw [hr] at h
    simp only [] at h
    split_ifs at h with hdg
    have hocc := (findMaxBelow_some hr).1
    obtain ⟨t2, ht2⟩ := isPrefixOf_iff.mp hocc
    have hsplit : pyLower n = (pyLower n).take idx ++ (tok ++ t2) := by
      rw [← ht2, List.take_append_drop]
    obtain ⟨hn1, hA, hrest⟩ := pyLower_decomp hsplit
    obtain ⟨hn2, hT, hDd⟩ := pyLower_decomp hrest
    have ht2digits : pyIsDigitStr t2 = true := by
      have hdrop : (pyLower n).drop (idx + tok.length) = t2 := by
        have h1 : ((pyLower n).drop idx).drop tok.length = t2 := by
          rw [ht2, List.drop_left]
        rw [← h1, List.drop_drop, Nat.add_comm]
      rw [hdrop] at hdg
      exact hdg
    obtain ⟨hne, hdig⟩ := digits_of_pyLower hDd ht2digits
    refine ⟨n.take ((pyLower n).take idx).length,
      ((n.drop ((pyLower n).take idx).length).take tok.length),
      ((n.drop ((pyLower n).take idx).length).drop tok.length),
      ?_, hT, hne, hdig⟩
    conv_lhs => rw [hn1]
    rw [List.append_assoc]
    exact congrArg _ hn2

/-- A successful format-3 match exhibits the `.z`-plus-digits shape. -/
lemma fmt3Idx_shape {n : List Char} {i : Nat} (h : fmt3Idx (pyLower n) = some i) :
    ∃ A Z Dd, n = A ++ Z ++ Dd ∧ pyLower Z = ['.', 'z'] ∧ Dd ≠ [] ∧
      ∀ c ∈ Dd, c.isDigit = true := by
  have hv := (findMaxBelow_some h).1
  unfold fmt3ValidAt at hv
  rw [Bool.and_eq_true, Bool.and_eq_true] at hv
  obtain ⟨⟨-, hpre⟩, hdg⟩ := hv
  obtain ⟨t2, ht2⟩ := isPrefixOf_iff.mp hpre
  have hsplit : pyLower n = (pyLower n).take i ++ (['.', 'z'] ++ t2) := by
    rw [← ht2, List.take_append_drop]
  obtain ⟨hn1, hA, hrest⟩ := pyLower_decomp hsplit
  obtain ⟨hn2, hZ, hDd⟩ := pyLower_decomp hrest
  have ht2digits : pyIsDigitStr t2 = true := by
    have hdrop : (pyLower n).drop (i + 2) = t2 := by
      have h1 : ((pyLower n).drop i).drop 2 = t2 := by
        rw [ht2]
        rfl
      rw [← h1, List.drop_drop, Nat.add_comm]
    rw [hdrop] at hdg
    exact hdg
  obtain ⟨hne, hdig⟩ := digits_of_pyLower hDd ht2digits
  refine ⟨n.take ((pyLower n).take i).length,
    (n.drop ((pyLower n).take i).length).take 2,
    (n.drop ((pyLower n).take i).length).drop 2, ?_, hZ, hne, hdig⟩
  conv_lhs => rw [hn1]
  rw [List.append_assoc]
  exact congrArg _ hn2

/-- A successful format-2 match means the lowered name ends in `.rar`,
`.zip` or `.7z`. -/
lemma fmt2Idx_endswith {n : List Char} {i : Nat} (h : fmt2Idx (pyLower n) = some i) :
    endswithL ['.', 'r', 'a', 'r'] (pyLower n) = true ∨
    endswithL ['.', 'z', 'i', 'p'] (pyLower n) = true ∨
    endswithL ['.', '7', 'z'] (pyLower n) = true := by
  have hv := (findMaxBelow_some h).1
  unfold fmt2ValidAt at hv
  rw [Bool.and_eq_true, Bool.and_eq_true] at hv
  obtain ⟨-, hrest⟩ := hv
  rw [Bool.and_eq_true] at hrest
  obtain ⟨-, hr⟩ := hrest
  have hlift : ∀ {suf : List Char},
      ((pyLower n).drop (i + 5)).drop
          (((pyLower n).drop (i + 5)).takeWhile (fun c => c.isDigit)).length = suf →
        endswithL suf (pyLower n) = true := by
    intro suf hsuf
    exact endswith_mono_drop (endswith_of_drop_eq hsuf)
  rcases Bool.or_eq_true _ _ |>.mp hr with hr2 | hr3
  · rcases Bool.or_eq_true _ _ |>.mp hr2 with hr4 | hr5
    · exact Or.inl (hlift (of_decide_eq_true hr4))
    · exact Or.inr (Or.inl (hlift (of_decide_eq_true hr5)))
  · exact Or.inr (Or.inr (hlift (of_decide_eq_true hr3)))

/-- A positive `fmt4Check` on the lowering exhibits the dot-plus-three
-digits shape of the filename itself. -/
lemma fmt4Check_shape {n : List Char} (h : fmt4Check (pyLower n) = true) :
    ∃ A Dd, n = A ++ '.' :: Dd ∧ Dd.length = 3 ∧ ∀ c ∈ Dd, c.isDigit = true := by
  cases hrev : n.reverse with
  | nil =>
    exfalso
    unfold fmt4Check at h
    rw [← pyLower_reverse, hrev] at h
    simp [pyLower] at h
  | cons e1 r1 =>
    cases r1 with
    | nil =>
      exfalso
      unfold fmt4Check at h
      rw [← pyLower_reverse, hrev] at h
      simp [pyLower] at h
    | cons e2 r2 =>
      cases r2 with
      | nil =>
        exfalso
        unfold fmt4Check at h
        rw [← pyLower_reverse, hrev] at h
        simp [pyLower] at h
      | cons e3 r3 =>
        cases r3 with
        | nil =>
          exfalso
          unfold fmt4Check at h
          rw [← pyLower_reverse, hrev] at h
          simp [pyLower] at h
        | cons e4 R =>
          unfold fmt4Check at h
          rw [← pyLower_reverse, hrev] at h
          have hred : ((pyLowerChar e1).isDigit && (pyLowerChar e2).isDigit &&
              (pyLowerChar e3).isDigit && decide (pyLowerChar e4 = '.')) = true := h
          rw [Bool.and_eq_true, Bool.and_eq_true, Bool.and_eq_true] at hred
          obtain ⟨⟨⟨h1, h2⟩, h3⟩, h4⟩ := hred
          rw [isDigit_pyLowerChar] at h1 h2 h3
          have he4 : e4 = '.' := pyLowerChar_eq_dot (of_decide_eq_true h4)
          have hn : n = R.reverse ++ [e4, e3, e2, e1] := by
            rw [← List.reverse_reverse n, hrev]
            simp
          refine ⟨R.reverse, [e3, e2, e1], ?_, rfl, ?_⟩
          · rw [hn, he4]
          · intro c hc
            rcases List.mem_cons.mp hc with hc | hc
            · subst hc; exact h3
            rcases List.mem_cons.mp hc with hc | hc
            · subst hc; exact h2
            rcases List.mem_cons.mp hc with hc | hc
            · subst hc; exact h1
            · simp at hc

/-- The four shapes a volume-classified filename can have. -/
lemma volume_shape {n : List Char} (h : (is_volume_part n).1 = true) :
    (∃ A T Dd, n = A ++ T ++ Dd ∧
      (pyLower T = tokZip ∨ pyLower T = tokSevenZ ∨ pyLower T = tokRar) ∧
      Dd ≠ [] ∧ ∀ c ∈ Dd, c.isDigit = true) ∨
    (endswithL ['.', 'r', 'a', 'r'] (pyLower n) = true ∨
     endswithL ['.', 'z', 'i', 'p'] (pyLower n) = true ∨
     endswithL ['.', '7', 'z'] (pyLower n) = true) ∨
    (∃ A Z Dd, n = A ++ Z ++ Dd ∧ pyLower Z = ['.', 'z'] ∧ Dd ≠ [] ∧
      ∀ c ∈ Dd, c.isDigit = true) ∨
    (∃ A Dd, n = A ++ '.' :: Dd ∧ Dd.length = 3 ∧ ∀ c ∈ Dd, c.isDigit = true) := by
  simp only [is_volume_part] at h
  cases hc : (fmt1Try n (pyLower n) tokZip <|> fmt1Try n (pyLower n) tokSevenZ <|>
      fmt1Try n (pyLower n) tokRar) with
  | some v =>
    left
    rcases orElse3_some hc with h1 | h1 | h1
    · obtain ⟨A, T, Dd, hn, hT, hne, hdig⟩ := fmt1Try_shape h1
      exact ⟨A, T, Dd, hn, Or.inl hT, hne, hdig⟩
    · obtain ⟨A, T, Dd, hn, hT, hne, hdig⟩ := fmt1Try_shape h1
      exact ⟨A, T, Dd, hn, Or.inr (Or.inl hT), hne, hdig⟩
    · obtain ⟨A, T, Dd, hn, hT, hne, hdig⟩ := fmt1Try_shape h1
      exact ⟨A, T, Dd, hn, Or.inr (Or.inr hT), hne, hdig⟩
  | none =>
    rw [hc] at h
    simp only [] at h
    cases hc2 : fmt2Idx (pyLower n) with
    | some i => exact Or.inr (Or.inl (fmt2Idx_endswith hc2))
    | none =>
      rw [hc2] at h
      simp only [] at h
      cases hc3 : fmt3Idx (pyLower n) with
      | some i => exact Or.inr (Or.inr (Or.inl (fmt3Idx_shape hc3)))
      | none =>
        rw [hc3] at h
        simp only [] at h
        by_cases h4 : fmt4Check (pyLower n) = true
        · exact Or.inr (Or.inr (Or.inr (fmt4Check_shape h4)))
        · rw [if_neg h4] at h
          simp at h

lemma reverse_decomp3 (A T Dd : List Char) :
    (A ++ T ++ Dd).reverse = Dd.reverse ++ (T.reverse ++ A.reverse) := by
  simp [List.reverse_append]

/-- The trailing digit run of `A ++ T ++ Dd` is exactly `Dd` when `Dd`
is all digits and `T` lowers to a token whose last character is not a
digit. -/
lemma takeWhile_digits_rev {A T Dd tok : List Char} (hT : pyLower T = tok)
    (htok : tok ≠ []) (hlast : ∀ c, tok.reverse.head? = some c → c.isDigit = false)
    (hdig : ∀ c ∈ Dd, c.isDigit = true) :
    ((A ++ T ++ Dd).reverse).takeWhile (fun c => c.isDigit) = Dd.reverse := by
  rw [reverse_decomp3]
  apply takeWhile_append_all
  · intro x hx
    exact hdig x (List.mem_reverse.mp hx)
  · intro hch hh
    have hTne : T ≠ [] := by
      intro hcn
      rw [hcn] at hT
      exact htok (by simpa [pyLower] using hT.symm)
    cases hTrev : T.reverse with
    | nil => exact absurd (by simpa using congrArg List.reverse hTrev) hTne
    | cons c0 rest =>
      rw [hTrev] at hh
      simp only [List.cons_append, List.head?_cons, Option.some.injEq] at hh
      subst hh
      have hlow : pyLowerChar c0 :: pyLower rest = tok.reverse := by
        have hrt := pyLower_reverse T
        rw [hTrev, hT] at hrt
        simpa [pyLower] using hrt
      have hc0 : tok.reverse.head? = some (pyLowerChar c0) := by rw [← hlow]; rfl
      have hdfalse := hlast _ hc0
      rw [isDigit_pyLowerChar] at hdfalse
      exact hdfalse

lemma subZTail_ne {A Z Dd : List Char} (hZ : pyLower Z = ['.', 'z'])
    (hne : Dd ≠ []) (hdig : ∀ c ∈ Dd, c.isDigit = true) :
    subZTail (A ++ Z ++ Dd) ≠ A ++ Z ++ Dd := by
  have hd : ((A ++ Z ++ Dd).reverse).takeWhile (fun c => c.isDigit) = Dd.reverse :=
    takeWhile_digits_rev hZ (by decide)
      (by intro c hcq; rw [show (['.', 'z'] : List Char).reverse.head? = some 'z' from rfl]
            at hcq
          injection hcq with hcq
          subst hcq
          rfl) hdig
  have hZlen : Z.length = 2 := by
    have hl := congrArg List.length hZ
    rw [pyLower_length] at hl
    simpa using hl
  have hLen : (A ++ Z ++ Dd).length = A.length + Z.length + Dd.length := by
    simp [Nat.add_assoc]
  have hDpos : 0 < Dd.length := List.length_pos.mpr hne
  intro hcontra
  simp only [subZTail] at hcontra
  split_ifs at hcontra with g
  · have hlc := congrArg List.length hcontra
    rw [List.length_take] at hlc
    omega
  · apply g
    rw [Bool.and_eq_true]
    constructor
    · rw [hd]
      simpa using hne
    · apply decide_eq_true
      have hdrop : (A ++ Z ++ Dd).reverse.drop
          (((A ++ Z ++ Dd).reverse.takeWhile (fun c => c.isDigit)).length) =
            Z.reverse ++ A.reverse := by
        rw [hd, reverse_decomp3]
        exact List.drop_left _ _
      rw [hdrop]
      have hZr : Z.reverse.length = 2 := by simpa using hZlen
      rw [show (2 : Nat) = Z.reverse.length from hZr.symm, List.take_left]
      rw [pyLower_reverse, hZ]
      rfl

lemma subCompoundTail_ne {A T Dd : List Char}
    (hT : pyLower T = tokZip ∨ pyLower T = tokSevenZ ∨ pyLower T = tokRar)
    (hne : Dd ≠ []) (hdig : ∀ c ∈ Dd, c.isDigit = true) :
    subCompoundTail (A ++ T ++ Dd) ≠ A ++ T ++ Dd := by
  have hd : ((A ++ T ++ Dd).reverse).takeWhile (fun c => c.isDigit) = Dd.reverse := by
    rcases hT with h | h | h
    · exact takeWhile_digits_rev h (by decide)
        (by intro c hcq
            rw [show tokZip.reverse.head? = some '.' from rfl] at hcq
            injection hcq with hcq
            subst hcq
            rfl) hdig
    · exact takeWhile_digits_rev h (by decide)
        (by intro c hcq
            rw [show tokSevenZ.reverse.head? = some '.' from rfl] at hcq
            injection hcq with hcq
            subst hcq
            rfl) hdig
    · exact takeWhile_digits_rev h (by decide)
        (by intro c hcq
            rw [show tokRar.reverse.head? = some '.' from rfl] at hcq
            injection hcq with hcq
            subst hcq
            rfl) hdig
  have hdrop : (A ++ T ++ Dd).reverse.drop
      (((A ++ T ++ Dd).reverse.takeWhile (fun c => c.isDigit)).length) =
        T.reverse ++ A.reverse := by
    rw [hd, reverse_decomp3]
    exact List.drop_left _ _
  have hLen : (A ++ T ++ Dd).length = A.length + T.length + Dd.length := by
    simp [Nat.add_assoc]
  have hDpos : 0 < Dd.length := List.length_pos.mpr hne
  intro hcontra
  simp only [subCompoundTail] at hcontra
  split_ifs at hcontra with g1 g2 g3
  · have hlc := congrArg List.length hcontra
    rw [List.length_take] at hlc
    omega
  · have hlc := congrArg List.length hcontra
    rw [List.length_take] at hlc
    omega
  · have hlc := congrArg List.length hcontra
    rw [List.length_take] at hlc
    omega
  · rcases hT with h | h | h
    · apply g1
      rw [Bool.and_eq_true]
      refine ⟨by rw [hd]; simpa using hne, ?_⟩
      apply decide_eq_true
      rw [hdrop]
      have hTr : T.reverse.length = 5 := by
        have hl := congrArg List.length h
        rw [pyLower_length] at hl
        simpa using hl
      rw [show (5 : Nat) = T.reverse.length from hTr.symm, List.take_left]
      rw [pyLower_reverse, h]
      rfl
    · apply g2
      rw [Bool.and_eq_true]
      refine ⟨by rw [hd]; simpa using hne, ?_⟩
      apply decide_eq_true
      rw [hdrop]
      have hTr : T.reverse.length = 4 := by
        have hl := congrArg List.length h
        rw [pyLower_length] at hl
        simpa using hl
      rw [show (4 : Nat) = T.reverse.length from hTr.symm, List.take_left]
      rw [pyLower_reverse, h]
      rfl
    · apply g3
      rw [Bool.and_eq_true]
      refine ⟨by rw [hd]; simpa using hne, ?_⟩
      apply decide_eq_true
      rw [hdrop]
      have hTr : T.reverse.length = 5 := by
        have hl := congrArg List.length h
        rw [pyLower_length] at hl
        simpa using hl
      rw [show (5 : Nat) = T.reverse.length from hTr.symm, List.take_left]
      rw [pyLower_reverse, h]
      rfl

lemma subDddTail_ne {A Dd : List Char} (hlen : Dd.length = 3)
    (hdig : ∀ c ∈ Dd, c.isDigit = true) :
    subDddTail (A ++ '.' :: Dd) ≠ A ++ '.' :: Dd := by
  obtain ⟨d1, d2, d3, rfl⟩ := List.length_eq_three.mp hlen
  have hrev : (A ++ '.' :: [d1, d2, d3]).reverse = d3 :: d2 :: d1 :: '.' :: A.reverse := by
    simp
  have hcheck : fmt4Check (A ++ '.' :: [d1, d2, d3]) = true := by
    unfold fmt4Check
    rw [hrev]
    show (d3.isDigit && d2.isDigit && d1.isDigit && decide ('.' = '.')) = true
    rw [hdig d3 (by simp), hdig d2 (by simp), hdig d1 (by simp)]
    rfl
  intro hcontra
  simp only [subDddTail] at hcontra
  rw [if_pos hcheck] at hcontra
  have hlc := congrArg List.length hcontra
  rw [List.length_take] at hlc
  have hlen4 : (A ++ '.' :: [d1, d2, d3]).length = A.length + 4 := by simp
  omega

lemma extract_lt_at_subPart {m : List Char} (he : stripExtOuter m = m)
    (h : (subPartTail m).length < m.length) : (extractNameOf m).length < m.length := by
  unfold extractNameOf
  rw [he]
  calc (subUZipTail (subDddTail (subCompoundTail (subZTail (subPartTail m))))).length
      ≤ (subDddTail (subCompoundTail (subZTail (subPartTail m)))).length := subUZipTail_le _
    _ ≤ (subCompoundTail (subZTail (subPartTail m))).length := subDddTail_le _
    _ ≤ (subZTail (subPartTail m)).length := subCompoundTail_le _
    _ ≤ (subPartTail m).length := subZTail_le _
    _ < m.length := h

lemma extract_lt_at_subZ {m : List Char} (he1 : stripExtOuter m = m)
    (he2 : subPartTail m = m) (h : (subZTail m).length < m.length) :
    (extractNameOf m).length < m.length := by
  unfold extractNameOf
  rw [he1, he2]
  calc (subUZipTail (subDddTail (subCompoundTail (subZTail m)))).length
      ≤ (subDddTail (subCompoundTail (subZTail m))).length := subUZipTail_le _
    _ ≤ (subCompoundTail (subZTail m)).length := subDddTail_le _
    _ ≤ (subZTail m).length := subCompoundTail_le _
    _ < m.length := h

lemma extract_lt_at_subC {m : List Char} (he1 : stripExtOuter m = m)
    (he2 : subPartTail m = m) (he3 : subZTail m = m)
    (h : (subCompoundTail m).length < m.length) :
    (extractNameOf m).length < m.length := by
  unfold extractNameOf
  rw [he1, he2, he3]
  calc (subUZipTail (subDddTail (subCompoundTail m))).length
      ≤ (subDddTail (subCompoundTail m)).length := subUZipTail_le _
    _ ≤ (subCompoundTail m).length := subDddTail_le _
    _ < m.length := h

lemma extract_lt_at_subD {m : List Char} (he1 : stripExtOuter m = m)
    (he2 : subPartTail m = m) (he3 : subZTail m = m) (he4 : subCompoundTail m = m)
    (h : (subDddTail m).length < m.length) :
    (extractNameOf m).length < m.length := by
  unfold extractNameOf
  rw [he1, he2, he3, he4]
  calc (subUZipTail (subDddTail m)).length
      ≤ (subDddTail m).length := subUZipTail_le _
    _ < m.length := h

/-! ### Claim C8: the normalized extraction name versus the source name -/

/-- C8 counterexample: `foo.zip.backup` is admitted as an archive
candidate (it contains the `.zip.` token), resolves to itself, and the
Canonical-Name Normalizer strips nothing from it, so the extraction
directory leaf name equals the resolved source archive's filename —
refuting "always distinct".  The built job even has
`extractDir = /o/foo.zip.backup` with leaf equal to the source
filename. -/
theorem claim_C8_counterexample :
    (scanDir ⟨"/d".toList, "/o".toList, fun _ => false⟩ ["foo.zip.backup".toList]).jobs =
      [⟨"/d/foo.zip.backup".toList, "/o/foo.zip.backup".toList, false,
        "foo.zip.backup".toList⟩] ∧
    extractNameOf "foo.zip.backup".toList = "foo.zip.backup".toList ∧
    pyBasename "/d/foo.zip.backup".toList = "foo.zip.backup".toList := by
  exact ⟨rfl, rfl, rfl⟩

/-- C8 (amended): for every archive candidate whose resolved filename
ends in a recognized archive extension (`.zip`/`.7z`/`.rar`,
case-insensitively) or is classified as a volume member, the
Canonical-Name Normalizer's output is strictly shorter than, hence
distinct from, that filename.  (A candidate admitted solely through the
format-token substring test can normalize to itself, as the
counterexample shows.) -/
theorem claim_C8_name_distinct (n : List Char)
    (h : (endswithL ['.', 'z', 'i', 'p'] (pyLower n) ||
          endswithL ['.', '7', 'z'] (pyLower n) ||
          endswithL ['.', 'r', 'a', 'r'] (pyLower n)) = true ∨
      (is_volume_part n).1 = true) :
    extractNameOf n ≠ n := by
  have hlt : (extractNameOf n).length < n.length := by
    rcases h with hext | hvol
    · apply extractNameOf_lt_of_strip
      apply stripExtOuter_strict
      rcases Bool.or_eq_true _ _ |>.mp hext with h1 | h1
      · rcases Bool.or_eq_true _ _ |>.mp h1 with h2 | h2
        · exact Or.inr (Or.inl h2)
        · exact Or.inr (Or.inr h2)
      · exact Or.inl h1
    · rcases volume_shape hvol with hf1 | hf2 | hf3 | hf4
      · obtain ⟨A, T, Dd, hn, hT, hne, hdig⟩ := hf1
        rcases stripExtOuter_cases n with he1 | hs
        swap
        · exact extractNameOf_lt_of_strip _ hs
        rcases subPartTail_cases n with he2 | hs
        swap
        · exact extract_lt_at_subPart he1 hs
        rcases subZTail_cases n with he3 | hs
        swap
        · exact extract_lt_at_subZ he1 he2 hs
        have hcne : subCompoundTail n ≠ n := by
          rw [hn]
          exact subCompoundTail_ne hT hne hdig
        rcases subCompoundTail_cases n with he4 | hs
        · exact absurd he4 hcne
        · exact extract_lt_at_subC he1 he2 he3 hs
      · exact extractNameOf_lt_of_strip _ (stripExtOuter_strict hf2)
      · obtain ⟨A, Z, Dd, hn, hZ, hne, hdig⟩ := hf3
        rcases stripExtOuter_cases n with he1 | hs
        swap
        · exact extractNameOf_lt_of_strip _ hs
        rcases subPartTail_cases n with he2 | hs
        swap
        · exact extract_lt_at_subPart he1 hs
        have hzne : subZTail n ≠ n := by
          rw [hn]
          exact subZTail_ne hZ hne hdig
        rcases subZTail_cases n with he3 | hs
        · exact absurd he3 hzne
        · exact extract_lt_at_subZ he1 he2 hs
      · obtain ⟨A, Dd, hn, hlen3, hdig⟩ := hf4
        rcases stripExtOuter_cases n with he1 | hs
        swap
        · exact extractNameOf_lt_of_strip _ hs
        rcases subPartTail_cases n with he2 | hs
        swap
        · exact extract_lt_at_subPart he1 hs
        rcases subZTail_cases n with he3 | hs
        swap
        · exact extract_lt_at_subZ he1 he2 hs
        rcases subCompoundTail_cases n with he4 | hs
        swap
        · exact extract_lt_at_subC he1 he2 he3 hs
        have hdne : subDddTail n ≠ n := by
          rw [hn]
          exact subDddTail_ne hlen3 hdig
        rcases subDddTail_cases n with he5 | hs
        · exact absurd he5 hdne
        · exact extract_lt_at_subD he1 he2 he3 he4 hs
  intro hcontra
  rw [hcontra] at hlt
  exact lt_irrefl _ hlt

/-- C8 witness: the amended theorem at a volume member and at a plain
archive. -/
theorem claim_C8_name_distinct_witness :
    extractNameOf "movie.7z.001".toList ≠ "movie.7z.001".toList ∧
    extractNameOf "report.zip".toList ≠ "report.zip".toList :=
  ⟨claim_C8_name_distinct "movie.7z.001".toList (Or.inr (by decide)),
   claim_C8_name_distinct "report.zip".toList (Or.inl (by decide))⟩

/-! ### Behavior of a single Job Builder step, and the deduplication
invariant -/

lemma contains_decide {a : List Char} {l : List (List Char)} :
    l.contains a = decide (a ∈ l) :=
  List.elem_eq_mem a l

lemma scanFile_notArchive {env : ScanEnv} {st : ScanState} {f : List Char}
    (h : isArchiveName f = false) :
    scanFile env st f = { st with total := st.total + 1, ignored := st.ignored + 1 } := by
  simp only [scanFile, h]
  rfl

lemma scanFile_dup {env : ScanEnv} {st : ScanState} {f : List Char}
    (h : isArchiveName f = true)
    (h2 : st.processed.contains (is_volume_part f).2.2 = true) :
    scanFile env st f = { st with total := st.total + 1 } := by
  simp only [scanFile, h, h2]
  rfl

lemma scanFile_skip {env : ScanEnv} {st : ScanState} {f : List Char}
    (h : isArchiveName f = true)
    (h2 : st.processed.contains (is_volume_part f).2.2 = false)
    (h3 : env.fsExists (pyJoin (extractDirFor env f) markerName) = true) :
    scanFile env st f =
      { st with
        total := st.total + 1,
        skipped := st.skipped + 1,
        processed := (is_volume_part f).2.2 :: st.processed } := by
  simp only [scanFile, h, h2, h3]
  rfl

lemma scanFile_enqueue {env : ScanEnv} {st : ScanState} {f : List Char}
    (h : isArchiveName f = true)
    (h2 : st.processed.contains (is_volume_part f).2.2 = false)
    (h3 : env.fsExists (pyJoin (extractDirFor env f) markerName) = false) :
    scanFile env st f =
      { st with
        total := st.total + 1,
        jobs := st.jobs ++ [⟨targetFileFor env f, extractDirFor env f,
          (is_volume_part f).1, (is_volume_part f).2.2⟩],
        processed := (is_volume_part f).2.2 :: st.processed,
        volumeCount := if (is_volume_part f).1 then st.volumeCount + 1 else st.volumeCount,
        normalCount := if (is_volume_part f).1 then st.normalCount
          else st.normalCount + 1 } := by
  simp only [scanFile, h, h2, h3]
  rfl

lemma isArchiveName_of_volume {f : List Char} (h : (is_volume_part f).1 = true) :
    isArchiveName f = true := by
  simp only [isArchiveName]
  split_ifs <;> first
    | rfl
    | exact h

/-- Case analysis on one scan step: the step either leaves `jobs` and
`processed` untouched, or skips (adding the base to `processed`), or
enqueues one job whose base is added to `processed`. -/
lemma scanFile_shape (env : ScanEnv) (st : ScanState) (f : List Char) :
    ((scanFile env st f).jobs = st.jobs ∧ (scanFile env st f).processed = st.processed) ∨
    ((scanFile env st f).jobs = st.jobs ∧
      (scanFile env st f).processed = (is_volume_part f).2.2 :: st.processed) ∨
    ((scanFile env st f).jobs = st.jobs ++ [⟨targetFileFor env f, extractDirFor env f,
        (is_volume_part f).1, (is_volume_part f).2.2⟩] ∧
      (scanFile env st f).processed = (is_volume_part f).2.2 :: st.processed ∧
      st.processed.contains (is_volume_part f).2.2 = false) := by
  by_cases h : isArchiveName f = true
  · by_cases h2 : st.processed.contains (is_volume_part f).2.2 = true
    · rw [scanFile_dup h h2]
      exact Or.inl ⟨rfl, rfl⟩
    · have h2f := Bool.eq_false_iff.mpr h2
      by_cases h3 : env.fsExists (pyJoin (extractDirFor env f) markerName) = true
      · rw [scanFile_skip h h2f h3]
        exact Or.inr (Or.inl ⟨rfl, rfl⟩)
      · rw [scanFile_enqueue h h2f (Bool.eq_false_iff.mpr h3)]
        exact Or.inr (Or.inr ⟨rfl, rfl, h2f⟩)
  · rw [scanFile_notArchive (Bool.eq_false_iff.mpr h)]
    exact Or.inl ⟨rfl, rfl⟩

/-- The deduplication invariant is preserved by a scan step. -/
lemma scanFile_dedup_inv {env : ScanEnv} {st : ScanState} (f : List Char)
    (hsub : ∀ j ∈ st.jobs, j.baseName ∈ st.processed)
    (hnd : (st.jobs.map Job.baseName).Nodup) :
    (∀ j ∈ (scanFile env st f).jobs, j.baseName ∈ (scanFile env st f).processed) ∧
    ((scanFile env st f).jobs.map Job.baseName).Nodup := by
  rcases scanFile_shape env st f with ⟨hj, hp⟩ | ⟨hj, hp⟩ | ⟨hj, hp, hcon⟩
  · rw [hj, hp]
    exact ⟨hsub, hnd⟩
  · rw [hj, hp]
    exact ⟨fun j hja => List.mem_cons_of_mem _ (hsub j hja), hnd⟩
  · rw [hj, hp]
    constructor
    · intro j hja
      rcases List.mem_append.mp hja with hja | hja
      · exact List.mem_cons_of_mem _ (hsub j hja)
      · rw [List.mem_singleton.mp hja]
        exact List.mem_cons_self _ _
    · rw [List.map_append]
      rw [List.nodup_append]
      refine ⟨hnd, List.nodup_singleton _, ?_⟩
      intro x hx hx2
      simp only [List.map_cons, List.map_nil, List.mem_singleton] at hx2
      subst hx2
      obtain ⟨j, hj2, hj3⟩ := List.mem_map.mp hx
      have := hsub j hj2
      rw [hj3] at this
      rw [contains_decide] at hcon
      simp only [decide_eq_false_iff_not] at hcon
      exact hcon this

/-- The deduplication invariant holds of any full scan. -/
lemma scanDir_dedup {env : ScanEnv} (files : List (List Char)) :
    ((scanDir env files).jobs.map Job.baseName).Nodup := by
  suffices hgen : ∀ st : ScanState, (∀ j ∈ st.jobs, j.baseName ∈ st.processed) →
      (st.jobs.map Job.baseName).Nodup →
      ((files.foldl (scanFile env) st).jobs.map Job.baseName).Nodup by
    exact hgen initState (by intro j hj; simp [initState] at hj) (by simp [initState])
  induction files with
  | nil => intro st h1 h2; exact h2
  | cons f fs ih =>
    intro st h1 h2
    obtain ⟨h1a, h2a⟩ := @scanFile_dedup_inv env st f h1 h2
    exact ih (scanFile env st f) h1a h2a

/-- Scanning further members of already-processed groups changes neither
`jobs` nor `processed`. -/
lemma scan_skip_dups {env : ScanEnv} (files : List (List Char)) (st : ScanState)
    (h : ∀ f ∈ files, (is_volume_part f).1 = true ∧
      (is_volume_part f).2.2 ∈ st.processed) :
    (files.foldl (scanFile env) st).jobs = st.jobs ∧
    (files.foldl (scanFile env) st).processed = st.processed := by
  induction files generalizing st with
  | nil => exact ⟨rfl, rfl⟩
  | cons f fs ih =>
    obtain ⟨hv, hb⟩ := h f (by simp)
    have hstep := @scanFile_dup env st f (isArchiveName_of_volume hv)
      (by rw [contains_decide]; exact decide_eq_true hb)
    rw [List.foldl_cons, hstep]
    exact ih _ (fun g hg => h g (by simp [hg]))

/-- C4: deduplication.  First, in any single Job Builder run at most one
`ExtractionJob` exists per `baseName` (the jobs' base names are pairwise
distinct).  Second, a volume group scan — a nonempty directory listing
all of whose members classify as volumes with the same shared `baseName`
`b`, with no completion marker present — yields exactly one
`ExtractionJob`, with `b` as its deduplication key, regardless of which
member comes first. -/
theorem claim_C4_dedup (env : ScanEnv) (files : List (List Char)) (b : List Char) :
    ((scanDir env files).jobs.map Job.baseName).Nodup ∧
    (files ≠ [] →
      (∀ f ∈ files, (is_volume_part f).1 = true ∧ (is_volume_part f).2.2 = b) →
      (∀ f ∈ files, env.fsExists (pyJoin (extractDirFor env f) markerName) = false) →
      (scanDir env files).jobs.map Job.baseName = [b]) := by
  refine ⟨scanDir_dedup files, ?_⟩
  intro hne hcls hmk
  cases files with
  | nil => exact absurd rfl hne
  | cons f0 rest =>
    obtain ⟨hv0, hb0⟩ := hcls f0 (by simp)
    have hstep := @scanFile_enqueue env initState f0
      (isArchiveName_of_volume hv0) (by rfl) (hmk f0 (by simp))
    have hrest := @scan_skip_dups env rest (scanFile env initState f0)
      (fun g hg => by
        obtain ⟨hvg, hbg⟩ := hcls g (by simp [hg])
        refine ⟨hvg, ?_⟩
        rw [hstep, hbg, ← hb0]
        exact List.mem_cons_self _ _)
    unfold scanDir
    rw [List.foldl_cons, hrest.1, hstep]
    simp [initState, hb0]

/-- C4 witness: a three-member `.7z` volume group listed out of order
yields exactly one job keyed `a.7z`. -/
theorem claim_C4_dedup_witness :
    (scanDir ⟨"/d".toList, "/o".toList, fun _ => false⟩
        ["a.7z.002".toList, "a.7z.001".toList, "a.7z.003".toList]).jobs.map Job.baseName =
      ["a.7z".toList] :=
  (claim_C4_dedup ⟨"/d".toList, "/o".toList, fun _ => false⟩
      ["a.7z.002".toList, "a.7z.001".toList, "a.7z.003".toList] "a.7z".toList).2
    (by simp) (by decide) (by intro f hf; rfl)

/-! ### Path and candidate-name lemmas for the idempotence claim -/

/-- The basename of a joined path is its final component, when that
component contains no separator. -/
lemma pyBasename_pyJoin {d n : List Char} (hn : ('/' : Char) ∉ n) :
    pyBasename (pyJoin d n) = n := by
  have hall : ∀ x ∈ n.reverse, (decide (x ≠ '/')) = true := by
    intro x hx
    exact decide_eq_true (fun hc => hn (hc ▸ List.mem_reverse.mp hx))
  unfold pyJoin pyBasename
  split_ifs with h1 h2
  · have htw := takeWhile_append_all (A := n.reverse) (B := [])
      (p := fun c => decide (c ≠ '/')) hall (by intro h hh; simp at hh)
    rw [List.append_nil] at htw
    rw [htw, List.reverse_reverse]
  · rw [List.reverse_append]
    have htw := takeWhile_append_all (A := n.reverse) (B := d.reverse)
      (p := fun c => decide (c ≠ '/')) hall (by
        intro h hh
        rw [List.head?_reverse, h2] at hh
        injection hh with hh
        subst hh
        decide)
    rw [htw, List.reverse_reverse]
  · rw [List.reverse_append, List.reverse_cons]
    rw [List.append_assoc]
    have htw := takeWhile_append_all (A := n.reverse) (B := ['/'] ++ d.reverse)
      (p := fun c => decide (c ≠ '/')) hall (by
        intro h hh
        simp only [List.cons_append, List.head?_cons, Option.some.injEq] at hh
        subst hh
        decide)
    rw [htw, List.reverse_reverse]

lemma getLast?_append_right {X l : List Char} (h : l ≠ []) :
    (X ++ l).getLast? = l.getLast? := by
  rw [← List.head?_reverse, ← List.head?_reverse, List.reverse_append]
  cases hl : l.reverse with
  | nil => exact absurd (by simpa using congrArg List.reverse hl) h
  | cons c rest => rfl

lemma ne_of_getLast? {a b : List Char} {x y : Char} (ha : a.getLast? = some x)
    (hb : b.getLast? = some y) (hxy : x ≠ y) : a ≠ b := by
  intro hcontra
  rw [hcontra, hb] at ha
  injection ha with ha
  exact hxy ha.symm

lemma getLast?_ne_marker {c : List Char} {x : Char} (h : c.getLast? = some x)
    (hx : x ≠ 'e') : c ≠ markerName :=
  ne_of_getLast? h (show markerName.getLast? = some 'e' from rfl) hx

lemma fmt1Try_base {n lower tok : List Char} {v : Nat × List Char}
    (h : fmt1Try n lower tok = some v) : ∃ k, v.2 = n.take k := by
  unfold fmt1Try at h
  cases hr : rfindSub tok lower with
  | none => rw [hr] at h; simp at h
  | some idx =>
    rw [hr] at h
    simp only [] at h
    split_ifs at h with hd
    injection h with h
    exact ⟨idx + tok.length - 1, by rw [← h]⟩

/-- The classifier's base name is a prefix of the filename, a prefix of
its lowering, or the filename itself. -/
lemma is_volume_part_base (f : List Char) :
    (∃ k, (is_volume_part f).2.2 = f.take k) ∨
    (∃ k, (is_volume_part f).2.2 = (pyLower f).take k) ∨
    (is_volume_part f).2.2 = f := by
  simp only [is_volume_part]
  cases hc : (fmt1Try f (pyLower f) tokZip <|> fmt1Try f (pyLower f) tokSevenZ <|>
      fmt1Try f (pyLower f) tokRar) with
  | some v =>
    obtain ⟨n0, b0⟩ := v
    left
    rcases orElse3_some hc with h1 | h1 | h1 <;> exact fmt1Try_base h1
  | none =>
    cases hc2 : fmt2Idx (pyLower f) with
    | some i => exact Or.inl ⟨i, rfl⟩
    | none =>
      cases hc3 : fmt3Idx (pyLower f) with
      | some i => exact Or.inr (Or.inl ⟨i, rfl⟩)
      | none =>
        by_cases h4 : fmt4Check (pyLower f) = true
        · exact Or.inl ⟨f.length - 4, by rw [if_pos h4]⟩
        · exact Or.inr (Or.inr (by rw [if_neg h4]))

lemma base_noSlash {f : List Char} (hf : ('/' : Char) ∉ f) :
    ('/' : Char) ∉ (is_volume_part f).2.2 := by
  rcases is_volume_part_base f with ⟨k, hk⟩ | ⟨k, hk⟩ | hk <;> rw [hk]
  · intro hm
    exact hf (List.mem_of_mem_take hm)
  · intro hm
    obtain ⟨c, hcm, hcl⟩ := List.mem_map.mp (List.mem_of_mem_take hm)
    exact hf (pyLowerChar_eq_slash hcl ▸ hcm)
  · exact hf

/-- Every volume-classified filename ends in a character that is neither
`e` nor a dot (a digit, or a letter that lowers to `r`, `p` or `z`). -/
lemma volume_getLast {f : List Char} (h : (is_volume_part f).1 = true) :
    ∃ c, f.getLast? = some c ∧ c ≠ 'e' ∧ c ≠ '.' := by
  have hdigit_case : ∀ (Dd : List Char), Dd ≠ [] → (∀ c ∈ Dd, c.isDigit = true) →
      ∃ c, Dd.getLast? = some c ∧ c ≠ 'e' ∧ c ≠ '.' := by
    intro Dd hne hdig
    refine ⟨Dd.getLast hne, List.getLast?_eq_getLast _ _, ?_, ?_⟩
    · intro hcontra
      have hdg := hdig _ (List.getLast_mem hne)
      rw [hcontra] at hdg
      simp at hdg
    · intro hcontra
      have hdg := hdig _ (List.getLast_mem hne)
      rw [hcontra] at hdg
      simp at hdg
  rcases volume_shape h with ⟨A, T, Dd, hn, -, hne, hdig⟩ | hext |
    ⟨A, Z, Dd, hn, -, hne, hdig⟩ | ⟨A, Dd, hn, hlen, hdig⟩
  · obtain ⟨c, hc1, hc2, hc3⟩ := hdigit_case Dd hne hdig
    exact ⟨c, by rw [hn, getLast?_append_right hne, hc1], hc2, hc3⟩
  · have hend : ∃ x, (pyLower f).getLast? = some x ∧ (x = 'r' ∨ x = 'p' ∨ x = 'z') := by
      rcases hext with hsuf | hsuf | hsuf <;>
        obtain ⟨t, ht⟩ := endswithL_iff.mp hsuf
      · exact ⟨'r', by rw [ht, getLast?_append_right (by decide)]; rfl, Or.inl rfl⟩
      · exact ⟨'p', by rw [ht, getLast?_append_right (by decide)]; rfl,
          Or.inr (Or.inl rfl)⟩
      · exact ⟨'z', by rw [ht, getLast?_append_right (by decide)]; rfl,
          Or.inr (Or.inr rfl)⟩
    obtain ⟨x, hx, hxcases⟩ := hend
    have hmapLast : (pyLower f).getLast? = f.getLast?.map pyLowerChar := by
      rw [← List.head?_reverse, ← pyLower_reverse]
      unfold pyLower
      rw [List.head?_map, List.head?_reverse]
    rw [hmapLast] at hx
    cases hfl : f.getLast? with
    | none => rw [hfl] at hx; simp at hx
    | some c =>
      rw [hfl] at hx
      injection hx with hx
      refine ⟨c, rfl, ?_, ?_⟩
      · intro hcontra
        subst hcontra
        rcases hxcases with hq | hq | hq <;> (subst hq; exact absurd hx (by decide))
      · intro hcontra
        subst hcontra
        rcases hxcases with hq | hq | hq <;> (subst hq; exact absurd hx (by decide))
  · obtain ⟨c, hc1, hc2, hc3⟩ := hdigit_case Dd hne hdig
    exact ⟨c, by rw [hn, getLast?_append_right hne, hc1], hc2, hc3⟩
  · obtain ⟨d1, d2, d3, rfl⟩ := List.length_eq_three.mp hlen
    refine ⟨d3, ?_, ?_, ?_⟩
    · rw [hn, getLast?_append_right (by simp)]
      rfl
    · intro hcontra
      have hdg := hdig d3 (by simp)
      rw [hcontra] at hdg
      simp at hdg
    · intro hcontra
      have hdg := hdig d3 (by simp)
      rw [hcontra] at hdg
      simp at hdg

lemma pySplitLastDot_getLast {f : List Char} {c : Char} (hf : f.getLast? = some c)
    (hc : c ≠ '.') : (pySplitLastDot f).getLast? = some c := by
  unfold pySplitLastDot
  rw [← List.head?_reverse] at hf
  cases hrev : f.reverse with
  | nil => rw [hrev] at hf; simp at hf
  | cons c0 rest =>
    rw [hrev] at hf
    injection hf with hf
    subst hf
    rw [List.takeWhile_cons]
    rw [show (decide (c0 ≠ '.')) = true from decide_eq_true hc]
    rw [if_pos rfl]
    rw [List.getLast?_reverse]
    rfl

lemma pySplitLastDot_subset {f : List Char} {x : Char} (h : x ∈ pySplitLastDot f) :
    x ∈ f := by
  unfold pySplitLastDot at h
  have h2 := List.mem_reverse.mp h
  exact List.mem_reverse.mp ((List.takeWhile_sublist _).subset h2)

lemma gfvCands_mem {f base c : List Char} (h : c ∈ gfvCands f base) :
    c = base ++ ['.', '0', '0', '1'] ∨
    (∃ nd, c = base ++ ['.', 'p', 'a', 'r', 't'] ++ zfill1 nd ++ '.' :: pySplitLastDot f) ∨
    c = base ++ ['.', 'p', 'a', 'r', 't', '1', '.'] ++ pySplitLastDot f ∨
    c = base ++ ['.', 'z', '0', '1'] ∨
    c = base ++ ['.', 'z', 'i', 'p'] := by
  unfold gfvCands at h
  rcases List.mem_append.mp h with h | h
  · rcases List.mem_append.mp h with h | h
    · rcases List.mem_append.mp h with h | h
      · split at h
        · exact Or.inl (List.mem_singleton.mp h)
        · simp at h
      · split at h
        · split at h
          · simp only [] at h
            rcases List.mem_append.mp h with h | h
            · exact Or.inr (Or.inl ⟨_, List.mem_singleton.mp h⟩)
            · split at h
              · exact Or.inr (Or.inr (Or.inl (List.mem_singleton.mp h)))
              · simp at h
          · simp at h
        · simp at h
    · split at h
      · rcases List.mem_cons.mp h with h | h
        · exact Or.inr (Or.inr (Or.inr (Or.inl h)))
        · rcases List.mem_cons.mp h with h | h
          · exact Or.inr (Or.inr (Or.inr (Or.inr h)))
          · simp at h
      · simp at h
  · split at h
    · exact Or.inl (List.mem_singleton.mp h)
    · simp at h

lemma zfill1_noSlash {nd : Nat} : ('/' : Char) ∉ zfill1 nd := by
  intro hm
  unfold zfill1 at hm
  rcases List.mem_append.mp hm with hm | hm
  · exact absurd (List.eq_of_mem_replicate hm) (by decide)
  · simp at hm

/-- Every first-volume candidate of a volume-classified, separator-free
filename is separator-free and differs from the marker filename. -/
lemma gfvCands_spec {f : List Char} (hf : ('/' : Char) ∉ f)
    (hvol : (is_volume_part f).1 = true) :
    ∀ c ∈ gfvCands f (is_volume_part f).2.2,
      (('/' : Char) ∉ c) ∧ c ≠ markerName := by
  intro c hc
  obtain ⟨ce, hce, hcee, hced⟩ := volume_getLast hvol
  have hbase := base_noSlash hf
  have hext_last : (pySplitLastDot f).getLast? = some ce := pySplitLastDot_getLast hce hced
  have hext_noslash : ('/' : Char) ∉ pySplitLastDot f :=
    fun hm => hf (pySplitLastDot_subset hm)
  have hdotext : ∃ y, ('.' :: pySplitLastDot f).getLast? = some y ∧ y ≠ 'e' := by
    cases hext : pySplitLastDot f with
    | nil => exact ⟨'.', rfl, by decide⟩
    | cons a rest =>
      refine ⟨ce, ?_, hcee⟩
      rw [show ('.' :: a :: rest) = ['.'] ++ (a :: rest) from rfl,
        getLast?_append_right (by simp), ← hext]
      exact hext_last
  rcases gfvCands_mem hc with h | ⟨nd, h⟩ | h | h | h <;> subst h
  · refine ⟨?_, getLast?_ne_marker (x := '1')
      (by rw [getLast?_append_right (by decide)]; rfl) (by decide)⟩
    intro hm
    rcases List.mem_append.mp hm with hm | hm
    · exact hbase hm
    · exact absurd hm (by decide)
  · constructor
    · intro hm
      rcases List.mem_append.mp hm with hm | hm
      · rcases List.mem_append.mp hm with hm | hm
        · rcases List.mem_append.mp hm with hm | hm
          · exact hbase hm
          · exact absurd hm (by decide)
        · exact zfill1_noSlash hm
      · rcases List.mem_cons.mp hm with hm | hm
        · exact absurd hm (by decide)
        · exact hext_noslash hm
    · obtain ⟨y, hy, hye⟩ := hdotext
      apply getLast?_ne_marker (x := y) _ hye
      rw [getLast?_append_right (l := '.' :: pySplitLastDot f) (by simp)]
      exact hy
  · constructor
    · intro hm
      rcases List.mem_append.mp hm with hm | hm
      · rcases List.mem_append.mp hm with hm | hm
        · exact hbase hm
        · exact absurd hm (by decide)
      · exact hext_noslash hm
    · cases hext : pySplitLastDot f with
      | nil =>
        apply getLast?_ne_marker (x := '.') _ (by decide)
        rw [List.append_nil,
          getLast?_append_right (l := ['.', 'p', 'a', 'r', 't', '1', '.']) (by decide)]
        decide
      | cons a rest =>
        apply getLast?_ne_marker (x := ce) _ hcee
        rw [getLast?_append_right (l := a :: rest) (by simp), ← hext]
        exact hext_last
  · refine ⟨?_, getLast?_ne_marker (x := '1')
      (by rw [getLast?_append_right (by decide)]; rfl) (by decide)⟩
    intro hm
    rcases List.mem_append.mp hm with hm | hm
    · exact hbase hm
    · exact absurd hm (by decide)
  · refine ⟨?_, getLast?_ne_marker (x := 'p')
      (by rw [getLast?_append_right (by decide)]; rfl) (by decide)⟩
    intro hm
    rcases List.mem_append.mp hm with hm | hm
    · exact hbase hm
    · exact absurd hm (by decide)

lemma get_first_volume_nonvol {fp f td : List Char} {ex : List Char → Bool}
    (h : (is_volume_part f).1 = false) :
    get_first_volume fp f td ex = fp := by
  simp only [get_first_volume, h]
  rfl

lemma get_first_volume_vol1 {fp f td : List Char} {ex : List Char → Bool}
    (h : (is_volume_part f).1 = true) (h1 : (is_volume_part f).2.1 = 1) :
    get_first_volume fp f td ex = fp := by
  simp only [get_first_volume, h, h1]
  rfl

lemma get_first_volume_voln {fp f td : List Char} {ex : List Char → Bool}
    (h : (is_volume_part f).1 = true) (h1 : ¬ (is_volume_part f).2.1 = 1) :
    get_first_volume fp f td ex =
      match (gfvCands f (is_volume_part f).2.2).find? (fun c => ex (pyJoin td c)) with
      | some c => pyJoin td c
      | none => fp := by
  simp only [get_first_volume, h]
  rw [if_neg (by decide), if_neg h1]

/-- Under an environment whose filesystem additionally contains exactly
the completion markers of a job list, the resolver and the extraction
directory computed for a separator-free filename are unchanged: no
first-volume candidate path can coincide with a marker path, since their
basenames differ. -/
lemma targetFileFor_congr {env env2 : ScanEnv} {J : List Job}
    (hdir : env2.dir = env.dir) (hout : env2.outBase = env.outBase)
    (hex : ∀ p, env2.fsExists p = (env.fsExists p ||
      J.any (fun j => pyJoin j.extractDir markerName == p)))
    {f : List Char} (hs : ('/' : Char) ∉ f) :
    targetFileFor env2 f = targetFileFor env f ∧
    extractDirFor env2 f = extractDirFor env f := by
  have htf : targetFileFor env2 f = targetFileFor env f := by
    unfold targetFileFor
    rw [hdir]
    by_cases hv : (is_volume_part f).1 = true
    · by_cases h1 : (is_volume_part f).2.1 = 1
      · rw [get_first_volume_vol1 hv h1, get_first_volume_vol1 hv h1]
      · rw [get_first_volume_voln hv h1, get_first_volume_voln hv h1]
        have hfind : (gfvCands f (is_volume_part f).2.2).find?
            (fun c => env2.fsExists (pyJoin env.dir c)) =
            (gfvCands f (is_volume_part f).2.2).find?
            (fun c => env.fsExists (pyJoin env.dir c)) := by
          apply find?_congr
          intro c hc
          obtain ⟨hns, hnm⟩ := gfvCands_spec hs hv c hc
          rw [hex]
          have hany : J.any (fun j => pyJoin j.extractDir markerName ==
              pyJoin env.dir c) = false := by
            apply Bool.eq_false_iff.mpr
            intro hcontra
            obtain ⟨j, hj, hjeq⟩ := List.any_eq_true.mp hcontra
            have heq : pyJoin j.extractDir markerName = pyJoin env.dir c := by
              simpa using hjeq
            have h1b : pyBasename (pyJoin j.extractDir markerName) = markerName :=
              pyBasename_pyJoin (by decide)
            rw [heq, pyBasename_pyJoin hns] at h1b
            exact hnm h1b
          rw [hany, Bool.or_false]
        rw [hfind]
    · rw [get_first_volume_nonvol (Bool.eq_false_iff.mpr hv),
        get_first_volume_nonvol (Bool.eq_false_iff.mpr hv)]
  refine ⟨htf, ?_⟩
  unfold extractDirFor
  rw [htf, hout]

/-- A scan fold only ever appends to the job list. -/
lemma scan_extends (env : ScanEnv) (fs : List (List Char)) (st : ScanState) :
    ∃ l, (fs.foldl (scanFile env) st).jobs = st.jobs ++ l := by
  induction fs generalizing st with
  | nil => exact ⟨[], by simp⟩
  | cons f rest ih =>
    obtain ⟨l1, hl1⟩ := ih (scanFile env st f)
    rcases scanFile_shape env st f with ⟨hj, -⟩ | ⟨hj, -⟩ | ⟨hj, -, -⟩
    · exact ⟨l1, by rw [List.foldl_cons, hl1, hj]⟩
    · exact ⟨l1, by rw [List.foldl_cons, hl1, hj]⟩
    · refine ⟨⟨targetFileFor env f, extractDirFor env f,
        (is_volume_part f).1, (is_volume_part f).2.2⟩ :: l1, ?_⟩
      rw [List.foldl_cons, hl1, hj, List.append_assoc]
      rfl

/-- A job present in the start state survives the scan fold. -/
lemma scan_mem (env : ScanEnv) (fs : List (List Char)) (st : ScanState) {j : Job}
    (hj : j ∈ st.jobs) : j ∈ (fs.foldl (scanFile env) st).jobs := by
  obtain ⟨l, hl⟩ := scan_extends env fs st
  rw [hl]
  exact List.mem_append_left _ hj

/-- Paired induction for the idempotence claim: running the scan under
the marker-augmented environment, starting from a state with an empty job
list, the same dedup set, and `skipped` already accounting for the first
run's pending jobs, ends with an empty job list and with `skipped` equal
to the first run's `skipped` plus its job count. -/
lemma scan_pair {env env2 : ScanEnv} {J : List Job}
    (hdir : env2.dir = env.dir) (hout : env2.outBase = env.outBase)
    (hex : ∀ p, env2.fsExists p = (env.fsExists p ||
      J.any (fun j => pyJoin j.extractDir markerName == p))) :
    ∀ (fs : List (List Char)) (st1 st2 : ScanState),
      (∀ f ∈ fs, ('/' : Char) ∉ f) →
      st2.jobs = [] →
      st2.processed = st1.processed →
      st2.skipped = st1.skipped + st1.jobs.length →
      (∀ j ∈ (fs.foldl (scanFile env) st1).jobs, j ∈ J) →
      (fs.foldl (scanFile env2) st2).jobs = [] ∧
      (fs.foldl (scanFile env2) st2).skipped =
        (fs.foldl (scanFile env) st1).skipped +
          (fs.foldl (scanFile env) st1).jobs.length := by
  intro fs
  induction fs with
  | nil =>
    intro st1 st2 _ h2 _ h4 _
    exact ⟨h2, h4⟩
  | cons f rest ih =>
    intro st1 st2 hsl hj2 hp2 hsk2 hJ
    have hslf : ('/' : Char) ∉ f := hsl f (List.mem_cons_self f rest)
    have hslr : ∀ g ∈ rest, ('/' : Char) ∉ g :=
      fun g hg => hsl g (List.mem_cons_of_mem f hg)
    have hcongr := targetFileFor_congr hdir hout hex hslf
    rw [List.foldl_cons, List.foldl_cons]
    rw [List.foldl_cons] at hJ
    by_cases ha : isArchiveName f = true
    · by_cases hcont : st1.processed.contains (is_volume_part f).2.2 = true
      · rw [scanFile_dup ha hcont] at hJ ⊢
        rw [scanFile_dup ha (by rw [hp2]; exact hcont)]
        exact ih _ _ hslr hj2 hp2 hsk2 hJ
      · have hcontf : st1.processed.contains (is_volume_part f).2.2 = false :=
          Bool.eq_false_iff.mpr hcont
        have hcont2 : st2.processed.contains (is_volume_part f).2.2 = false := by
          rw [hp2]
          exact hcontf
        by_cases hmk : env.fsExists (pyJoin (extractDirFor env f) markerName) = true
        · have hmk2 : env2.fsExists (pyJoin (extractDirFor env2 f) markerName) = true := by
            rw [hcongr.2, hex, hmk, Bool.true_or]
          rw [scanFile_skip ha hcontf hmk] at hJ ⊢
          rw [scanFile_skip ha hcont2 hmk2]
          refine ih _ _ hslr hj2 ?_ ?_ hJ
          · simp [hp2]
          · simp [hsk2]
            omega
        · have hmkf : env.fsExists (pyJoin (extractDirFor env f) markerName) = false :=
            Bool.eq_false_iff.mpr hmk
          rw [scanFile_enqueue ha hcontf hmkf] at hJ ⊢
          have hj0 : (⟨targetFileFor env f, extractDirFor env f,
              (is_volume_part f).1, (is_volume_part f).2.2⟩ : Job) ∈ J := by
            apply hJ
            apply scan_mem
            simp
          have hmk2 : env2.fsExists (pyJoin (extractDirFor env2 f) markerName) = true := by
            have hany : J.any (fun j => pyJoin j.extractDir markerName ==
                pyJoin (extractDirFor env f) markerName) = true :=
              List.any_eq_true.mpr ⟨_, hj0, by simp⟩
            rw [hcongr.2, hex, hany, Bool.or_true]
          rw [scanFile_skip ha hcont2 hmk2]
          refine ih _ _ hslr hj2 ?_ ?_ hJ
          · simp [hp2]
          · simp [hsk2]
            omega
    · have haf : isArchiveName f = false := Bool.eq_false_iff.mpr ha
      rw [scanFile_notArchive haf] at hJ
      rw [scanFile_notArchive haf, scanFile_notArchive haf]
      exact ih _ _ hslr hj2 hp2 hsk2 hJ

/-- C5: Idempotence after success. If after a first Job Builder scan
every built job's completion marker `.zipp_done` is written inside its
extraction directory (modeled by augmenting the filesystem predicate with
exactly those marker paths), then a second scan of the same directory
listing (of plain filenames, hence separator-free) builds zero jobs, and
every group that was enqueued in the first scan is now counted as
skipped: the second scan's skip count is the first scan's skip count plus
the first scan's job count. -/
theorem claim_C5_idempotent (env : ScanEnv) (files : List (List Char))
    (hs : ∀ f ∈ files, ('/' : Char) ∉ f) :
    (scanDir { env with fsExists := fun p => env.fsExists p ||
        (scanDir env files).jobs.any (fun j => pyJoin j.extractDir markerName == p) }
      files).jobs = [] ∧
    (scanDir { env with fsExists := fun p => env.fsExists p ||
        (scanDir env files).jobs.any (fun j => pyJoin j.extractDir markerName == p) }
      files).skipped =
      (scanDir env files).skipped + (scanDir env files).jobs.length :=
  @scan_pair env
    { env with fsExists := fun p => env.fsExists p ||
        (scanDir env files).jobs.any (fun j => pyJoin j.extractDir markerName == p) }
    (scanDir env files).jobs rfl rfl (fun _ => rfl) files initState initState hs
    rfl rfl rfl (fun _ hj => hj)

/-- Witness for C5 at a concrete directory: `/d` containing `report.zip`,
`movie.7z.001`, `movie.7z.002` with output base `/o`. The first scan
builds two jobs (the `movie` volume group is deduplicated); after their
markers exist, the second scan builds no jobs and skips both groups. -/
theorem claim_C5_idempotent_witness :
    (∀ f ∈ (["report.zip".toList, "movie.7z.001".toList, "movie.7z.002".toList] :
        List (List Char)), ('/' : Char) ∉ f) ∧
    ((scanDir { (⟨"/d".toList, "/o".toList, fun _ => false⟩ : ScanEnv) with
        fsExists := fun p => (fun _ => false : List Char → Bool) p ||
          (scanDir ⟨"/d".toList, "/o".toList, fun _ => false⟩
            ["report.zip".toList, "movie.7z.001".toList,
              "movie.7z.002".toList]).jobs.any
            (fun j => pyJoin j.extractDir markerName == p) }
      ["report.zip".toList, "movie.7z.001".toList, "movie.7z.002".toList]).jobs = [] ∧
    (scanDir { (⟨"/d".toList, "/o".toList, fun _ => false⟩ : ScanEnv) with
        fsExists := fun p => (fun _ => false : List Char → Bool) p ||
          (scanDir ⟨"/d".toList, "/o".toList, fun _ => false⟩
            ["report.zip".toList, "movie.7z.001".toList,
              "movie.7z.002".toList]).jobs.any
            (fun j => pyJoin j.extractDir markerName == p) }
      ["report.zip".toList, "movie.7z.001".toList, "movie.7z.002".toList]).skipped =
      (scanDir ⟨"/d".toList, "/o".toList, fun _ => false⟩
        ["report.zip".toList, "movie.7z.001".toList, "movie.7z.002".toList]).skipped +
      (scanDir ⟨"/d".toList, "/o".toList, fun _ => false⟩
        ["report.zip".toList, "movie.7z.001".toList,
          "movie.7z.002".toList]).jobs.length) :=
  ⟨by decide,
    claim_C5_idempotent ⟨"/d".toList, "/o".toList, fun _ => false⟩
      ["report.zip".toList, "movie.7z.001".toList, "movie.7z.002".toList] (by decide)⟩

lemma pyLowerChar_digit {c : Char} (h : c.isDigit = true) : pyLowerChar c = c := by
  unfold pyLowerChar
  cases hf : upperLowerTable.find? (fun q => q.1 == c) with
  | none => rfl
  | some q =>
    exfalso
    have hmem := List.mem_of_find?_eq_some hf
    have hq := List.find?_some hf
    have hc : q.1 = c := by simpa using hq
    have hall : ∀ q ∈ upperLowerTable, q.1.isDigit = false := by decide
    rw [← hc, hall q hmem] at h
    cases h

lemma pyLower_digits {D : List Char} (hD : ∀ c ∈ D, c.isDigit = true) :
    pyLower D = D := by
  induction D with
  | nil => rfl
  | cons d t ih =>
    show pyLowerChar d :: pyLower t = d :: t
    rw [pyLowerChar_digit (hD d (List.mem_cons_self d t)),
      ih (fun c hc => hD c (List.mem_cons_of_mem d hc))]

lemma nondigit_beq {x c : Char} (hx : x.isDigit = false) (hc : c.isDigit = true) :
    (x == c) = false := by
  rw [beq_eq_false_iff_ne]
  intro h
  rw [h, hc] at hx
  cases hx

lemma not_prefix_digits {p D : List Char} {x : Char} (hh : p.head? = some x)
    (hx : x.isDigit = false) (hD : ∀ c ∈ D, c.isDigit = true) :
    p.isPrefixOf D = false := by
  cases p with
  | nil => simp at hh
  | cons a t =>
    injection hh with hh
    subst hh
    cases D with
    | nil => rfl
    | cons d D2 =>
      show ((a == d) && t.isPrefixOf D2) = false
      rw [nondigit_beq hx (hD d (List.mem_cons_self d D2))]
      rfl

lemma take_app_left {A B : List Char} {n : Nat} (h : n ≤ A.length) :
    (A ++ B).take n = A.take n := by
  induction A generalizing n with
  | nil =>
    have : n = 0 := by simpa using h
    simp [this]
  | cons a t ih =>
    cases n with
    | zero => rfl
    | succ m =>
      show a :: (t ++ B).take m = a :: t.take m
      rw [ih (by simpa using h)]

lemma take_app_add {A B : List Char} (n : Nat) :
    (A ++ B).take (A.length + n) = A ++ B.take n := by
  induction A with
  | nil => simp
  | cons a t ih =>
    have h1 : (a :: t).length + n = (t.length + n) + 1 := by
      rw [List.length_cons]
      omega
    rw [h1]
    show a :: (t ++ B).take (t.length + n) = a :: (t ++ B.take n)
    rw [ih]

lemma drop_app_add {A B : List Char} (n : Nat) :
    (A ++ B).drop (A.length + n) = B.drop n := by
  induction A with
  | nil => simp
  | cons a t ih =>
    have h1 : (a :: t).length + n = (t.length + n) + 1 := by
      rw [List.length_cons]
      omega
    rw [h1]
    show (t ++ B).drop (t.length + n) = B.drop n
    exact ih

/-- Within a token-plus-digit-tail region, the token has no further
occurrence at any strictly later offset. -/
lemma no_tok_after {tok D : List Char} (htok : tok ∈ volTokens)
    (hD : ∀ c ∈ D, c.isDigit = true) :
    ∀ m, 0 < m → tok.isPrefixOf ((tok ++ D).drop m) = false := by
  have hDdrop : ∀ k, ∀ c ∈ D.drop k, c.isDigit = true :=
    fun k c hc => hD c (List.drop_subset k D hc)
  intro m hm
  rcases (show tok = tokZip ∨ tok = tokSevenZ ∨ tok = tokRar by
    simpa [volTokens] using htok) with h | h | h <;> subst h
  · by_cases hml : m < 5
    · interval_cases m
      · rfl
      · rfl
      · rfl
      · show (['z', 'i', 'p', '.'] : List Char).isPrefixOf D = false
        exact not_prefix_digits rfl (by decide) hD
    · have hm2 : m = 5 + (m - 5) := by omega
      rw [hm2]
      have hdd : (tokZip ++ D).drop (5 + (m - 5)) = D.drop (m - 5) := by
        have h0 := drop_app_add (A := tokZip) (B := D) (m - 5)
        rw [show List.length tokZip = 5 from rfl] at h0
        exact h0
      rw [hdd]
      exact not_prefix_digits rfl (by decide) (hDdrop _)
  · by_cases hml : m < 4
    · interval_cases m
      · rfl
      · rfl
      · show (tokSevenZ : List Char).isPrefixOf ('.' :: D) = false
        show (['7', 'z', '.'] : List Char).isPrefixOf D = false
        cases D with
        | nil => rfl
        | cons d D2 =>
          show (('7' == d) && (['z', '.'] : List Char).isPrefixOf D2) = false
          rw [not_prefix_digits (p := ['z', '.']) rfl (by decide)
            (fun c hc => hD c (List.mem_cons_of_mem d hc))]
          exact Bool.and_false _
    · have hm2 : m = 4 + (m - 4) := by omega
      rw [hm2]
      have hdd : (tokSevenZ ++ D).drop (4 + (m - 4)) = D.drop (m - 4) := by
        have h0 := drop_app_add (A := tokSevenZ) (B := D) (m - 4)
        rw [show List.length tokSevenZ = 4 from rfl] at h0
        exact h0
      rw [hdd]
      exact not_prefix_digits rfl (by decide) (hDdrop _)
  · by_cases hml : m < 5
    · interval_cases m
      · rfl
      · rfl
      · rfl
      · show (['r', 'a', 'r', '.'] : List Char).isPrefixOf D = false
        exact not_prefix_digits rfl (by decide) hD
    · have hm2 : m = 5 + (m - 5) := by omega
      rw [hm2]
      have hdd : (tokRar ++ D).drop (5 + (m - 5)) = D.drop (m - 5) := by
        have h0 := drop_app_add (A := tokRar) (B := D) (m - 5)
        rw [show List.length tokRar = 5 from rfl] at h0
        exact h0
      rw [hdd]
      exact not_prefix_digits rfl (by decide) (hDdrop _)

lemma volTokens_length {tok : List Char} (htok : tok ∈ volTokens) : 4 ≤ tok.length := by
  rcases (show tok = tokZip ∨ tok = tokSevenZ ∨ tok = tokRar by
    simpa [volTokens] using htok) with h | h | h <;> subst h <;> decide

/-- Soundness of the decomposition reading of format 1: whenever the
filename splits as `B ++ T ++ D` with `T` lowering to the token and `D` a
nonempty digit tail, the format-1 probe succeeds with sequence `int(D)`
and base `B ++ T` minus the trailing dot. -/
lemma fmt1Try_eq_of_decomp {f B T D tok : List Char} (htok : tok ∈ volTokens)
    (hf : f = B ++ T ++ D) (hT : pyLower T = tok) (hD : D ≠ [])
    (hDd : ∀ c ∈ D, c.isDigit = true) :
    fmt1Try f (pyLower f) tok = some (pyStrToNat D, B ++ T.take (T.length - 1)) := by
  have hDfix : pyLower D = D := pyLower_digits hDd
  have hlow : pyLower f = pyLower B ++ (tok ++ D) := by
    rw [hf, pyLower_append, pyLower_append, hT, hDfix, List.append_assoc]
  have hlen : (pyLower B).length = B.length := pyLower_length B
  have htoklen : tok.length = T.length := by rw [← hT, pyLower_length]
  have htl : 4 ≤ tok.length := volTokens_length htok
  have hrf : rfindSub tok (pyLower f) = some B.length := by
    unfold rfindSub
    apply findMaxBelow_intro
    · show tok.isPrefixOf ((pyLower f).drop B.length) = true
      rw [hlow, ← hlen, List.drop_left]
      exact isPrefixOf_iff.mpr ⟨D, rfl⟩
    · rw [pyLower_length, hf]
      simp only [List.length_append]
      omega
    · intro j hj hjb
      show tok.isPrefixOf ((pyLower f).drop j) = false
      rw [hlow]
      have hj2 : j = (pyLower B).length + (j - B.length) := by omega
      rw [hj2, drop_app_add]
      exact no_tok_after htok hDd _ (by omega)
  unfold fmt1Try
  rw [hrf]
  simp only []
  have hsuffix : (pyLower f).drop (B.length + tok.length) = D := by
    rw [hlow, ← List.append_assoc]
    have hlen2 : B.length + tok.length = (pyLower B ++ tok).length := by
      rw [List.length_append, hlen]
    rw [hlen2, List.drop_left]
  rw [hsuffix]
  have hdig : pyIsDigitStr D = true := by
    unfold pyIsDigitStr
    rw [Bool.and_eq_true]
    refine ⟨?_, ?_⟩
    · cases D with
      | nil => exact absurd rfl hD
      | cons d t => rfl
    · rw [List.all_eq_true]
      intro c hc
      exact hDd c hc
  rw [if_pos hdig]
  have htake : f.take (B.length + tok.length - 1) = B ++ T.take (T.length - 1) := by
    rw [htoklen, hf, List.append_assoc]
    have h1 : B.length + T.length - 1 = B.length + (T.length - 1) := by omega
    rw [h1, take_app_add, take_app_left (by omega)]
  rw [htake]

lemma takeWhile_all {p : Char → Bool} (l : List Char) :
    ∀ c ∈ l.takeWhile p, p c = true := by
  induction l with
  | nil => intro c hc; simp at hc
  | cons a t ih =>
    intro c hc
    rw [List.takeWhile_cons] at hc
    split at hc
    · rcases List.mem_cons.mp hc with hc | hc
      · subst hc; assumption
      · exact ih c hc
    · simp at hc

lemma takeWhile_decomp {p : Char → Bool} (l : List Char) :
    l = l.takeWhile p ++ l.drop (l.takeWhile p).length := by
  obtain ⟨s, hs⟩ := List.takeWhile_prefix p (l := l)
  have h1 : l.take (l.takeWhile p).length = l.takeWhile p := by
    calc l.take (l.takeWhile p).length
        = (l.takeWhile p ++ s).take (l.takeWhile p).length := by rw [hs]
      _ = l.takeWhile p := by rw [take_app_left (le_refl _), List.take_length]
  conv_lhs => rw [← List.take_append_drop (l.takeWhile p).length l]
  rw [h1]

lemma fmt2ValidAt_intro {lower : List Char} {i : Nat} {d e : List Char}
    (hsplit : lower.drop i = ['.', 'p', 'a', 'r', 't'] ++ (d ++ e))
    (hi : 0 < i) (hd : d ≠ []) (hdd : ∀ c ∈ d, c.isDigit = true)
    (he : e = ['.', 'r', 'a', 'r'] ∨ e = ['.', 'z', 'i', 'p'] ∨ e = ['.', '7', 'z']) :
    fmt2ValidAt lower i = true := by
  have ht : lower.drop (i + 5) = d ++ e := by
    have h1 : (lower.drop i).drop 5 = d ++ e := by rw [hsplit]; rfl
    rw [← h1, List.drop_drop, Nat.add_comm]
  have hehead : ∀ c, e.head? = some c → c.isDigit = false := by
    rcases he with he | he | he <;> subst he <;> intro c hc <;>
      (injection hc with hc; subst hc; decide)
  have hdtake : (lower.drop (i + 5)).takeWhile (fun c => c.isDigit) = d := by
    rw [ht]
    exact takeWhile_append_all hdd hehead
  have hdropd : (lower.drop (i + 5)).drop
      ((lower.drop (i + 5)).takeWhile (fun c => c.isDigit)).length = e := by
    rw [hdtake, ht, List.drop_left]
  unfold fmt2ValidAt
  simp only [Bool.and_eq_true]
  refine ⟨⟨decide_eq_true hi, ?_⟩, ?_, ?_⟩
  · rw [hsplit]
    exact isPrefixOf_iff.mpr ⟨d ++ e, rfl⟩
  · rw [hdtake]
    cases d with
    | nil => exact absurd rfl hd
    | cons a t => rfl
  · rw [hdropd]
    rcases he with he | he | he <;> subst he <;> decide

lemma fmt2ValidAt_elim {lower : List Char} {i : Nat}
    (h : fmt2ValidAt lower i = true) :
    0 < i ∧ ∃ d e, lower.drop i = ['.', 'p', 'a', 'r', 't'] ++ (d ++ e) ∧ d ≠ [] ∧
      (∀ c ∈ d, c.isDigit = true) ∧
      (e = ['.', 'r', 'a', 'r'] ∨ e = ['.', 'z', 'i', 'p'] ∨ e = ['.', '7', 'z']) ∧
      d = (lower.drop (i + 5)).takeWhile (fun c => c.isDigit) := by
  unfold fmt2ValidAt at h
  simp only [] at h
  rw [Bool.and_eq_true, Bool.and_eq_true, Bool.and_eq_true] at h
  obtain ⟨⟨hi, hpre⟩, hdne, hr⟩ := h
  refine ⟨of_decide_eq_true hi, (lower.drop (i + 5)).takeWhile (fun c => c.isDigit),
    (lower.drop (i + 5)).drop
      ((lower.drop (i + 5)).takeWhile (fun c => c.isDigit)).length, ?_, ?_, ?_, ?_, rfl⟩
  · obtain ⟨t2, ht2⟩ := isPrefixOf_iff.mp hpre
    rw [ht2]
    have h5 : t2 = lower.drop (i + 5) := by
      have h1 : (lower.drop i).drop 5 = t2 := by rw [ht2]; rfl
      rw [← h1, List.drop_drop, Nat.add_comm]
    rw [h5]
    rw [← takeWhile_decomp]
  · intro hcn
    rw [hcn] at hdne
    cases hdne
  · exact takeWhile_all _
  · rcases Bool.or_eq_true _ _ |>.mp hr with h1 | h2
    · rcases Bool.or_eq_true _ _ |>.mp h1 with h3 | h4
      · exact Or.inl (of_decide_eq_true h3)
      · exact Or.inr (Or.inl (of_decide_eq_true h4))
    · exact Or.inr (Or.inr (of_decide_eq_true h2))

lemma length_bound_fmt2 {lower : List Char} {i : Nat} {d e : List Char}
    (hsplit : lower.drop i = ['.', 'p', 'a', 'r', 't'] ++ (d ++ e)) :
    i ≤ lower.length ∧ lower.length - i = 5 + (d.length + e.length) := by
  have h1 : (lower.drop i).length = 5 + (d.length + e.length) := by
    rw [hsplit]
    simp only [List.length_append, List.length_cons, List.length_nil]
  rw [List.length_drop] at h1
  constructor
  · by_contra hc
    push_neg at hc
    omega
  · exact h1

lemma rev_form_fmt2 {lower : List Char} {i : Nat} {d e : List Char}
    (hsplit : lower.drop i = ['.', 'p', 'a', 'r', 't'] ++ (d ++ e)) :
    lower.reverse =
      e.reverse ++ (lower.take i ++ ['.', 'p', 'a', 'r', 't'] ++ d).reverse := by
  have hfull : lower = (lower.take i ++ ['.', 'p', 'a', 'r', 't'] ++ d) ++ e := by
    conv_lhs => rw [← List.take_append_drop i lower, hsplit]
    simp [List.append_assoc]
  conv_lhs => rw [hfull]
  rw [List.reverse_append]

lemma rev_digit_run_fmt2 {lower : List Char} {i : Nat} {d e : List Char}
    (hsplit : lower.drop i = ['.', 'p', 'a', 'r', 't'] ++ (d ++ e))
    (hdd : ∀ c ∈ d, c.isDigit = true) :
    ((lower.take i ++ ['.', 'p', 'a', 'r', 't'] ++ d).reverse).takeWhile
      (fun c => c.isDigit) = d.reverse :=
  takeWhile_digits_rev
    (show pyLower ['.', 'p', 'a', 'r', 't'] = ['.', 'p', 'a', 'r', 't'] from by decide)
    (by decide)
    (fun c hc => by
      injection hc with hc
      subst hc
      decide) hdd

lemma fmt2ValidAt_unique {lower : List Char} {i j : Nat}
    (hi : fmt2ValidAt lower i = true) (hj : fmt2ValidAt lower j = true) : i = j := by
  obtain ⟨hi0, di, ei, hsi, hdi, hddi, hei, -⟩ := fmt2ValidAt_elim hi
  obtain ⟨hj0, dj, ej, hsj, hdj, hddj, hej, -⟩ := fmt2ValidAt_elim hj
  obtain ⟨hile, hleni⟩ := length_bound_fmt2 hsi
  obtain ⟨hjle, hlenj⟩ := length_bound_fmt2 hsj
  have hrevi := rev_form_fmt2 hsi
  have hrevj := rev_form_fmt2 hsj
  have hh := hrevi.symm.trans hrevj
  have hee : ei = ej := by
    have hh2 := congrArg List.head? hh
    rcases hei with h1 | h1 | h1 <;> rcases hej with h2 | h2 | h2 <;>
      subst h1 <;> subst h2 <;> first
      | rfl
      | exact absurd (Option.some.inj hh2) (by decide)
  subst hee
  have hR : (lower.take i ++ ['.', 'p', 'a', 'r', 't'] ++ di).reverse =
      (lower.take j ++ ['.', 'p', 'a', 'r', 't'] ++ dj).reverse := by
    have h1 := congrArg (fun l => l.drop ei.reverse.length) hh
    simpa [List.drop_left] using h1
  have hd : di.reverse = dj.reverse := by
    rw [← rev_digit_run_fmt2 hsi hddi, ← rev_digit_run_fmt2 hsj hddj, hR]
  have hdd2 : di = dj := by
    have h2 := congrArg List.reverse hd
    simpa using h2
  have hld : di.length = dj.length := congrArg List.length hdd2
  omega

lemma fmt2Idx_eq_of_decomp {f B P D E : List Char} (hf : f = B ++ P ++ D ++ E)
    (hB : B ≠ []) (hP : pyLower P = ['.', 'p', 'a', 'r', 't']) (hD : D ≠ [])
    (hDd : ∀ c ∈ D, c.isDigit = true)
    (hE : pyLower E = ['.', 'r', 'a', 'r'] ∨ pyLower E = ['.', 'z', 'i', 'p'] ∨
      pyLower E = ['.', '7', 'z']) :
    fmt2Idx (pyLower f) = some B.length := by
  have hDfix : pyLower D = D := pyLower_digits hDd
  have hPl : P.length = 5 := by
    have h0 := pyLower_length P
    rw [hP] at h0
    simpa using h0.symm
  have hlow : pyLower f =
      pyLower B ++ (['.', 'p', 'a', 'r', 't'] ++ (D ++ pyLower E)) := by
    rw [hf, pyLower_append, pyLower_append, pyLower_append, hP, hDfix]
    simp [List.append_assoc]
  have hsplit : (pyLower f).drop B.length =
      ['.', 'p', 'a', 'r', 't'] ++ (D ++ pyLower E) := by
    rw [hlow, show B.length = (pyLower B).length from (pyLower_length B).symm,
      List.drop_left]
  have hvalid : fmt2ValidAt (pyLower f) B.length = true :=
    fmt2ValidAt_intro hsplit (List.length_pos.mpr hB) hD hDd hE
  unfold fmt2Idx
  apply findMaxBelow_intro hvalid
  · obtain ⟨-, hlen⟩ := length_bound_fmt2 hsplit
    omega
  · intro j hj hjb
    apply Bool.eq_false_iff.mpr
    intro htrue
    exact absurd (fmt2ValidAt_unique htrue hvalid) (by omega)

lemma fmt2Idx_shape_pos {n : List Char} {i : Nat} (h : fmt2Idx (pyLower n) = some i) :
    ∃ B P D E, n = B ++ P ++ D ++ E ∧ B ≠ [] ∧
      pyLower P = ['.', 'p', 'a', 'r', 't'] ∧ D ≠ [] ∧ (∀ c ∈ D, c.isDigit = true) ∧
      (pyLower E = ['.', 'r', 'a', 'r'] ∨ pyLower E = ['.', 'z', 'i', 'p'] ∨
        pyLower E = ['.', '7', 'z']) := by
  have hv := (findMaxBelow_some h).1
  obtain ⟨hi0, d, e, hsplit, hdne, hdd, he, -⟩ := fmt2ValidAt_elim hv
  obtain ⟨hile, -⟩ := length_bound_fmt2 hsplit
  have hfull : pyLower n =
      (pyLower n).take i ++ (['.', 'p', 'a', 'r', 't'] ++ (d ++ e)) := by
    rw [← hsplit, List.take_append_drop]
  obtain ⟨hn1, hA, hrest⟩ := pyLower_decomp hfull
  obtain ⟨hn2, hPl, hrest2⟩ := pyLower_decomp hrest
  obtain ⟨hn3, hDl, hEl⟩ := pyLower_decomp hrest2
  have hdigstr : pyIsDigitStr d = true := by
    unfold pyIsDigitStr
    rw [Bool.and_eq_true]
    refine ⟨?_, ?_⟩
    · cases d with
      | nil => exact absurd rfl hdne
      | cons a t => rfl
    · rw [List.all_eq_true]
      exact hdd
  obtain ⟨hDne, hDdig⟩ := digits_of_pyLower hDl hdigstr
  refine ⟨n.take ((pyLower n).take i).length,
    (n.drop ((pyLower n).take i).length).take
      (['.', 'p', 'a', 'r', 't'] : List Char).length,
    ((n.drop ((pyLower n).take i).length).drop
      (['.', 'p', 'a', 'r', 't'] : List Char).length).take d.length,
    ((n.drop ((pyLower n).take i).length).drop
      (['.', 'p', 'a', 'r', 't'] : List Char).length).drop d.length,
    ?_, ?_, hPl, hDne, hDdig, ?_⟩
  · conv_lhs => rw [hn1]
    conv_lhs => rw [hn2]
    conv_lhs => rw [hn3]
    simp [List.append_assoc]
  · have hlen : (n.take ((pyLower n).take i).length).length = i := by
      rw [List.length_take, List.length_take, pyLower_length]
      have hnl : i ≤ n.length := by
        rw [← pyLower_length]
        exact hile
      omega
    intro hcn
    rw [hcn] at hlen
    simp at hlen
    omega
  · rcases he with he | he | he <;> rw [he] at hEl
    · exact Or.inl hEl
    · exact Or.inr (Or.inl hEl)
    · exact Or.inr (Or.inr hEl)

lemma fmt3ValidAt_intro {lower : List Char} {i : Nat} {D : List Char}
    (hsplit : lower.drop i = ['.', 'z'] ++ D) (hi : 0 < i) (hD : D ≠ [])
    (hdd : ∀ c ∈ D, c.isDigit = true) : fmt3ValidAt lower i = true := by
  have ht : lower.drop (i + 2) = D := by
    have h1 : (lower.drop i).drop 2 = D := by rw [hsplit]; rfl
    rw [← h1, List.drop_drop, Nat.add_comm]
  unfold fmt3ValidAt
  simp only [Bool.and_eq_true]
  refine ⟨⟨decide_eq_true hi, ?_⟩, ?_⟩
  · rw [hsplit]
    exact isPrefixOf_iff.mpr ⟨D, rfl⟩
  · rw [ht]
    unfold pyIsDigitStr
    rw [Bool.and_eq_true]
    refine ⟨?_, ?_⟩
    · cases D with
      | nil => exact absurd rfl hD
      | cons a t => rfl
    · rw [List.all_eq_true]
      exact hdd

lemma fmt3ValidAt_elim {lower : List Char} {i : Nat}
    (h : fmt3ValidAt lower i = true) :
    0 < i ∧ lower.drop i = ['.', 'z'] ++ lower.drop (i + 2) ∧
      lower.drop (i + 2) ≠ [] ∧ ∀ c ∈ lower.drop (i + 2), c.isDigit = true := by
  unfold fmt3ValidAt at h
  rw [Bool.and_eq_true, Bool.and_eq_true] at h
  obtain ⟨⟨hi, hpre⟩, hdg⟩ := h
  unfold pyIsDigitStr at hdg
  rw [Bool.and_eq_true] at hdg
  obtain ⟨hne, hall⟩ := hdg
  refine ⟨of_decide_eq_true hi, ?_, ?_, ?_⟩
  · obtain ⟨t2, ht2⟩ := isPrefixOf_iff.mp hpre
    have h5 : t2 = lower.drop (i + 2) := by
      have h1 : (lower.drop i).drop 2 = t2 := by rw [ht2]; rfl
      rw [← h1, List.drop_drop, Nat.add_comm]
    rw [ht2, h5]
  · intro hcn
    rw [hcn] at hne
    cases hne
  · rw [List.all_eq_true] at hall
    exact hall

lemma rev_digit_run_fmt3 {lower : List Char} {i : Nat} {D : List Char}
    (hsplit : lower.drop i = ['.', 'z'] ++ D)
    (hdd : ∀ c ∈ D, c.isDigit = true) :
    (lower.reverse).takeWhile (fun c => c.isDigit) = D.reverse := by
  have hfull : lower = lower.take i ++ (['.', 'z'] ++ D) := by
    rw [← hsplit, List.take_append_drop]
  generalize hXi : lower.take i = Xi at hfull
  conv_lhs => rw [hfull]
  rw [show Xi ++ (['.', 'z'] ++ D) = Xi ++ ['.', 'z'] ++ D from by
    simp [List.append_assoc]]
  exact takeWhile_digits_rev
    (show pyLower ['.', 'z'] = ['.', 'z'] from by decide) (by decide)
    (fun c hc => by
      injection hc with hc
      subst hc
      decide) hdd

lemma length_bound_fmt3 {lower : List Char} {i : Nat} {D : List Char}
    (hsplit : lower.drop i = ['.', 'z'] ++ D) :
    i ≤ lower.length ∧ lower.length - i = 2 + D.length := by
  have h1 : (lower.drop i).length = 2 + D.length := by
    rw [hsplit]
    simp only [List.length_append, List.length_cons, List.length_nil]
  rw [List.length_drop] at h1
  constructor
  · by_contra hc
    push_neg at hc
    omega
  · exact h1

lemma fmt3ValidAt_unique {lower : List Char} {i j : Nat}
    (hi : fmt3ValidAt lower i = true) (hj : fmt3ValidAt lower j = true) : i = j := by
  obtain ⟨hi0, hsi, hdi, hddi⟩ := fmt3ValidAt_elim hi
  obtain ⟨hj0, hsj, hdj, hddj⟩ := fmt3ValidAt_elim hj
  obtain ⟨hile, hleni⟩ := length_bound_fmt3 hsi
  obtain ⟨hjle, hlenj⟩ := length_bound_fmt3 hsj
  have hri := rev_digit_run_fmt3 hsi hddi
  have hrj := rev_digit_run_fmt3 hsj hddj
  have hD : lower.drop (i + 2) = lower.drop (j + 2) := by
    have h0 := hri.symm.trans hrj
    have h1 := congrArg List.reverse h0
    simpa using h1
  have hld : (lower.drop (i + 2)).length = (lower.drop (j + 2)).length :=
    congrArg List.length hD
  omega

lemma fmt3Idx_eq_of_decomp {f B Z D : List Char} (hf : f = B ++ Z ++ D)
    (hB : B ≠ []) (hZ : pyLower Z = ['.', 'z']) (hD : D ≠ [])
    (hDd : ∀ c ∈ D, c.isDigit = true) :
    fmt3Idx (pyLower f) = some B.length := by
  have hDfix : pyLower D = D := pyLower_digits hDd
  have hlow : pyLower f = pyLower B ++ (['.', 'z'] ++ D) := by
    rw [hf, pyLower_append, pyLower_append, hZ, hDfix, List.append_assoc]
  have hsplit : (pyLower f).drop B.length = ['.', 'z'] ++ D := by
    rw [hlow, show B.length = (pyLower B).length from (pyLower_length B).symm,
      List.drop_left]
  have hvalid : fmt3ValidAt (pyLower f) B.length = true :=
    fmt3ValidAt_intro hsplit (List.length_pos.mpr hB) hD hDd
  unfold fmt3Idx
  apply findMaxBelow_intro hvalid
  · obtain ⟨-, hlen⟩ := length_bound_fmt3 hsplit
    have hDl : 0 < D.length := List.length_pos.mpr hD
    omega
  · intro j hj hjb
    apply Bool.eq_false_iff.mpr
    intro htrue
    exact absurd (fmt3ValidAt_unique htrue hvalid) (by omega)

lemma fmt3Idx_shape_pos {n : List Char} {i : Nat} (h : fmt3Idx (pyLower n) = some i) :
    ∃ B Z D, n = B ++ Z ++ D ∧ B ≠ [] ∧ pyLower Z = ['.', 'z'] ∧ D ≠ [] ∧
      ∀ c ∈ D, c.isDigit = true := by
  have hv := (findMaxBelow_some h).1
  obtain ⟨hi0, hsplit, hdne, hdd⟩ := fmt3ValidAt_elim hv
  obtain ⟨hile, -⟩ := length_bound_fmt3 hsplit
  have hfull : pyLower n =
      (pyLower n).take i ++ (['.', 'z'] ++ (pyLower n).drop (i + 2)) := by
    rw [← hsplit, List.take_append_drop]
  obtain ⟨hn1, hA, hrest⟩ := pyLower_decomp hfull
  obtain ⟨hn2, hZl, hDl⟩ := pyLower_decomp hrest
  have hdigstr : pyIsDigitStr ((pyLower n).drop (i + 2)) = true := by
    unfold pyIsDigitStr
    rw [Bool.and_eq_true]
    refine ⟨?_, ?_⟩
    · cases hc : (pyLower n).drop (i + 2) with
      | nil => exact absurd hc hdne
      | cons a t => rfl
    · rw [List.all_eq_true]
      exact hdd
  obtain ⟨hDne, hDdig⟩ := digits_of_pyLower hDl hdigstr
  refine ⟨n.take ((pyLower n).take i).length,
    (n.drop ((pyLower n).take i).length).take (['.', 'z'] : List Char).length,
    (n.drop ((pyLower n).take i).length).drop (['.', 'z'] : List Char).length,
    ?_, ?_, hZl, hDne, hDdig⟩
  · conv_lhs => rw [hn1]
    conv_lhs => rw [hn2]
    rw [List.append_assoc]
  · have hlen : (n.take ((pyLower n).take i).length).length = i := by
      rw [List.length_take, List.length_take, pyLower_length]
      have hnl : i ≤ n.length := by
        rw [← pyLower_length]
        exact hile
      omega
    intro hcn
    rw [hcn] at hlen
    simp at hlen
    omega

lemma fmt4Check_of_decomp {f B D : List Char} (hf : f = B ++ '.' :: D)
    (hlen : D.length = 3) (hdd : ∀ c ∈ D, c.isDigit = true) :
    fmt4Check (pyLower f) = true := by
  obtain ⟨a, b, c, habc⟩ := List.length_eq_three.mp hlen
  subst habc
  subst hf
  have hfix : pyLower (B ++ '.' :: [a, b, c]) = pyLower B ++ '.' :: [a, b, c] := by
    rw [pyLower_append]
    congr 1
    show pyLowerChar '.' :: [pyLowerChar a, pyLowerChar b, pyLowerChar c] =
      '.' :: [a, b, c]
    rw [pyLowerChar_digit (hdd a (by simp)), pyLowerChar_digit (hdd b (by simp)),
      pyLowerChar_digit (hdd c (by simp))]
    rfl
  unfold fmt4Check
  rw [hfix, List.reverse_append]
  show (c.isDigit && b.isDigit && a.isDigit && decide (('.' : Char) = '.')) = true
  rw [hdd a (by simp), hdd b (by simp), hdd c (by simp)]
  rfl

/-! ### Reduction lemmas for the classifier's cascade -/

lemma is_volume_part_eq_fmt1 {f : List Char} {n : Nat} {b : List Char}
    (h : (fmt1Try f (pyLower f) tokZip <|> fmt1Try f (pyLower f) tokSevenZ <|>
      fmt1Try f (pyLower f) tokRar) = some (n, b)) :
    is_volume_part f = (true, n, b) := by
  simp only [is_volume_part]
  rw [h]

lemma is_volume_part_eq_fmt2 {f : List Char} {i : Nat}
    (h1 : (fmt1Try f (pyLower f) tokZip <|> fmt1Try f (pyLower f) tokSevenZ <|>
      fmt1Try f (pyLower f) tokRar) = none)
    (h2 : fmt2Idx (pyLower f) = some i) :
    is_volume_part f = (true,
      pyStrToNat (((pyLower f).drop (i + 5)).takeWhile (fun c => c.isDigit)),
      f.take i) := by
  simp only [is_volume_part]
  rw [h1]
  simp only []
  rw [h2]

lemma is_volume_part_eq_fmt3 {f : List Char} {i : Nat}
    (h1 : (fmt1Try f (pyLower f) tokZip <|> fmt1Try f (pyLower f) tokSevenZ <|>
      fmt1Try f (pyLower f) tokRar) = none)
    (h2 : fmt2Idx (pyLower f) = none)
    (h3 : fmt3Idx (pyLower f) = some i) :
    is_volume_part f = (true, pyStrToNat ((pyLower f).drop (i + 2)),
      (pyLower f).take i) := by
  simp only [is_volume_part]
  rw [h1]
  simp only []
  rw [h2]
  simp only []
  rw [h3]

lemma is_volume_part_eq_fmt4 {f : List Char}
    (h1 : (fmt1Try f (pyLower f) tokZip <|> fmt1Try f (pyLower f) tokSevenZ <|>
      fmt1Try f (pyLower f) tokRar) = none)
    (h2 : fmt2Idx (pyLower f) = none)
    (h3 : fmt3Idx (pyLower f) = none)
    (h4 : fmt4Check (pyLower f) = true) :
    is_volume_part f = (true,
      pyStrToNat ((pyLower f).drop ((pyLower f).length - 3)),
      f.take (f.length - 4)) := by
  simp only [is_volume_part]
  rw [h1]
  simp only []
  rw [h2]
  simp only []
  rw [h3]
  simp only []
  rw [if_pos h4]

lemma is_volume_part_eq_none {f : List Char}
    (h1 : (fmt1Try f (pyLower f) tokZip <|> fmt1Try f (pyLower f) tokSevenZ <|>
      fmt1Try f (pyLower f) tokRar) = none)
    (h2 : fmt2Idx (pyLower f) = none)
    (h3 : fmt3Idx (pyLower f) = none)
    (h4 : fmt4Check (pyLower f) = false) :
    is_volume_part f = (false, 0, f) := by
  simp only [is_volume_part]
  rw [h1]
  simp only []
  rw [h2]
  simp only []
  rw [h3]
  simp only []
  rw [if_neg (by rw [h4]; exact Bool.false_ne_true)]

/-! ### Bridging the spec predicates to matcher failures -/

lemma fmt1Try_none_of_not_has {tok f : List Char} (h : ¬ hasFmt1 tok f) :
    fmt1Try f (pyLower f) tok = none := by
  cases hc : fmt1Try f (pyLower f) tok with
  | none => rfl
  | some v =>
    exfalso
    obtain ⟨A, T, Dd, hn, hT, hne, hdig⟩ := fmt1Try_shape hc
    exact h ⟨A, T, Dd, hn, hT, hne, hdig⟩

lemma fmt1Chain_none_of_not_has {f : List Char}
    (hz : ¬ hasFmt1 tokZip f) (h7 : ¬ hasFmt1 tokSevenZ f)
    (hr : ¬ hasFmt1 tokRar f) :
    (fmt1Try f (pyLower f) tokZip <|> fmt1Try f (pyLower f) tokSevenZ <|>
      fmt1Try f (pyLower f) tokRar) = none := by
  rw [fmt1Try_none_of_not_has hz, fmt1Try_none_of_not_has h7,
    fmt1Try_none_of_not_has hr]
  rfl

lemma fmt2Idx_none_of_not_has {f : List Char} (h : ¬ hasFmt2 f) :
    fmt2Idx (pyLower f) = none := by
  cases hc : fmt2Idx (pyLower f) with
  | none => rfl
  | some i =>
    exfalso
    obtain ⟨B, P, D, E, hn, hB, hP, hD, hDd, hE⟩ := fmt2Idx_shape_pos hc
    exact h ⟨B, P, D, E, hn, hB, hP, hD, hDd, hE⟩

lemma fmt3Idx_none_of_not_has {f : List Char} (h : ¬ hasFmt3 f) :
    fmt3Idx (pyLower f) = none := by
  cases hc : fmt3Idx (pyLower f) with
  | none => rfl
  | some i =>
    exfalso
    obtain ⟨B, Z, D, hn, hB, hZ, hD, hDd⟩ := fmt3Idx_shape_pos hc
    exact h ⟨B, Z, D, hn, hB, hZ, hD, hDd⟩

lemma fmt4Check_false_of_not_has {f : List Char} (h : ¬ hasFmt4 f) :
    fmt4Check (pyLower f) = false := by
  cases hc : fmt4Check (pyLower f) with
  | false => rfl
  | true =>
    exfalso
    obtain ⟨A, Dd, hn, hlen, hdd⟩ := fmt4Check_shape hc
    exact h ⟨A, Dd, hn, hlen, hdd⟩

lemma not_hasFmt1_of_none {tok f : List Char} (htok : tok ∈ volTokens)
    (h : fmt1Try f (pyLower f) tok = none) : ¬ hasFmt1 tok f :=
  fun ⟨B, T, D, hf, hT, hD, hdig⟩ => by
    rw [fmt1Try_eq_of_decomp htok hf hT hD hdig] at h
    exact Option.noConfusion h

lemma not_hasFmt1_all_of_none {f : List Char}
    (hz : fmt1Try f (pyLower f) tokZip = none)
    (h7 : fmt1Try f (pyLower f) tokSevenZ = none)
    (hr : fmt1Try f (pyLower f) tokRar = none) :
    ∀ tok ∈ volTokens, ¬ hasFmt1 tok f := by
  intro tok htok
  rcases (show tok = tokZip ∨ tok = tokSevenZ ∨ tok = tokRar by
    simpa [volTokens] using htok) with h | h | h <;> subst h
  · exact not_hasFmt1_of_none (by decide) hz
  · exact not_hasFmt1_of_none (by decide) h7
  · exact not_hasFmt1_of_none (by decide) hr

lemma not_hasFmt2_of_none {f : List Char} (h : fmt2Idx (pyLower f) = none) :
    ¬ hasFmt2 f :=
  fun ⟨B, P, D, E, hf, hB, hP, hD, hDd, hE⟩ => by
    rw [fmt2Idx_eq_of_decomp hf hB hP hD hDd hE] at h
    exact Option.noConfusion h

lemma not_hasFmt3_of_none {f : List Char} (h : fmt3Idx (pyLower f) = none) :
    ¬ hasFmt3 f :=
  fun ⟨B, Z, D, hf, hB, hZ, hD, hDd⟩ => by
    rw [fmt3Idx_eq_of_decomp hf hB hZ hD hDd] at h
    exact Option.noConfusion h

lemma not_hasFmt4_of_false {f : List Char} (h : fmt4Check (pyLower f) = false) :
    ¬ hasFmt4 f :=
  fun ⟨B, D, hf, hlen, hdd⟩ => by
    rw [fmt4Check_of_decomp hf hlen hdd] at h
    exact Bool.noConfusion h

/-- C3 (amended): the Volume Classifier follows the documented four-format
priority cascade, with one correction: a format-3 match (`<base>.z<digits>`)
returns the LOWERCASED base (`match.group(1)` of the lowered name), not the
original-case base.  Format 1 (token `.zip.`/`.7z.`/`.rar.` followed by a
purely numeric tail, the three tokens tried in that order) yields
`int(tail)` and the original-case prefix up through the token minus its
trailing dot; format 2 (`<base>.part<digits>.<rar|zip|7z>`) yields
`int(digits)` and the original-case base; format 3 yields `int(digits)` and
`pyLower base`; format 4 (ending in dot plus exactly three digits) yields
the three digits and the name minus its last four characters; a filename
matching no format is classified `(false, 0, filename)`. -/
theorem claim_C3_classifier (f : List Char) :
    (∀ B T D, f = B ++ T ++ D → pyLower T = tokZip → D ≠ [] →
      (∀ c ∈ D, c.isDigit = true) →
      is_volume_part f = (true, pyStrToNat D, B ++ T.take (T.length - 1))) ∧
    (¬ hasFmt1 tokZip f → ∀ B T D, f = B ++ T ++ D → pyLower T = tokSevenZ →
      D ≠ [] → (∀ c ∈ D, c.isDigit = true) →
      is_volume_part f = (true, pyStrToNat D, B ++ T.take (T.length - 1))) ∧
    (¬ hasFmt1 tokZip f → ¬ hasFmt1 tokSevenZ f → ∀ B T D, f = B ++ T ++ D →
      pyLower T = tokRar → D ≠ [] → (∀ c ∈ D, c.isDigit = true) →
      is_volume_part f = (true, pyStrToNat D, B ++ T.take (T.length - 1))) ∧
    ((∀ tok ∈ volTokens, ¬ hasFmt1 tok f) → ∀ B P D E, f = B ++ P ++ D ++ E →
      B ≠ [] → pyLower P = ['.', 'p', 'a', 'r', 't'] → D ≠ [] →
      (∀ c ∈ D, c.isDigit = true) →
      (pyLower E = ['.', 'r', 'a', 'r'] ∨ pyLower E = ['.', 'z', 'i', 'p'] ∨
        pyLower E = ['.', '7', 'z']) →
      is_volume_part f = (true, pyStrToNat D, B)) ∧
    ((∀ tok ∈ volTokens, ¬ hasFmt1 tok f) → ¬ hasFmt2 f → ∀ B Z D,
      f = B ++ Z ++ D → B ≠ [] → pyLower Z = ['.', 'z'] → D ≠ [] →
      (∀ c ∈ D, c.isDigit = true) →
      is_volume_part f = (true, pyStrToNat D, pyLower B)) ∧
    ((∀ tok ∈ volTokens, ¬ hasFmt1 tok f) → ¬ hasFmt2 f → ¬ hasFmt3 f →
      ∀ B D, f = B ++ '.' :: D → D.length = 3 → (∀ c ∈ D, c.isDigit = true) →
      is_volume_part f = (true, pyStrToNat D, B)) ∧
    ((∀ tok ∈ volTokens, ¬ hasFmt1 tok f) → ¬ hasFmt2 f → ¬ hasFmt3 f →
      ¬ hasFmt4 f → is_volume_part f = (false, 0, f)) := by
  refine ⟨?_, ?_, ?_, ?_, ?_, ?_, ?_⟩
  · intro B T D hf hT hD hdig
    apply is_volume_part_eq_fmt1
    rw [fmt1Try_eq_of_decomp (by decide) hf hT hD hdig]
    rfl
  · intro hz B T D hf hT hD hdig
    apply is_volume_part_eq_fmt1
    rw [fmt1Try_none_of_not_has hz,
      fmt1Try_eq_of_decomp (by decide) hf hT hD hdig]
    rfl
  · intro hz h7 B T D hf hT hD hdig
    apply is_volume_part_eq_fmt1
    rw [fmt1Try_none_of_not_has hz, fmt1Try_none_of_not_has h7,
      fmt1Try_eq_of_decomp (by decide) hf hT hD hdig]
    rfl
  · intro hnot1 B P D E hf hB hP hD hdig hE
    have hchain := fmt1Chain_none_of_not_has (hnot1 _ (by decide))
      (hnot1 _ (by decide)) (hnot1 _ (by decide))
    have h2 := fmt2Idx_eq_of_decomp hf hB hP hD hdig hE
    rw [is_volume_part_eq_fmt2 hchain h2]
    have hDfix : pyLower D = D := pyLower_digits hdig
    have hlow : pyLower f =
        pyLower B ++ (['.', 'p', 'a', 'r', 't'] ++ (D ++ pyLower E)) := by
      rw [hf, pyLower_append, pyLower_append, pyLower_append, hP, hDfix]
      simp [List.append_assoc]
    have ht : (pyLower f).drop (B.length + 5) = D ++ pyLower E := by
      rw [hlow, show B.length + 5 = (pyLower B).length + 5 from by
        rw [pyLower_length], drop_app_add]
      rfl
    have hEhead : ∀ c, (pyLower E).head? = some c → c.isDigit = false := by
      rcases hE with he | he | he <;> rw [he] <;> intro c hc <;>
        (injection hc with hc; subst hc; decide)
    have htw : ((pyLower f).drop (B.length + 5)).takeWhile (fun c => c.isDigit) = D := by
      rw [ht]
      exact takeWhile_append_all hdig hEhead
    have htake : f.take B.length = B := by
      rw [hf]
      rw [take_app_left (show B.length ≤ ((B ++ P) ++ D).length from by
          simp only [List.length_append]; omega),
        take_app_left (show B.length ≤ (B ++ P).length from by
          simp only [List.length_append]; omega),
        take_app_left (le_refl _), List.take_length]
    rw [htw, htake]
  · intro hnot1 hnot2 B Z D hf hB hZ hD hdig
    have hchain := fmt1Chain_none_of_not_has (hnot1 _ (by decide))
      (hnot1 _ (by decide)) (hnot1 _ (by decide))
    have h2 := fmt2Idx_none_of_not_has hnot2
    have h3 := fmt3Idx_eq_of_decomp hf hB hZ hD hdig
    rw [is_volume_part_eq_fmt3 hchain h2 h3]
    have hDfix : pyLower D = D := pyLower_digits hdig
    have hlow : pyLower f = pyLower B ++ (['.', 'z'] ++ D) := by
      rw [hf, pyLower_append, pyLower_append, hZ, hDfix, List.append_assoc]
    have hdropD : (pyLower f).drop (B.length + 2) = D := by
      rw [hlow, show B.length + 2 = (pyLower B).length + 2 from by
        rw [pyLower_length], drop_app_add]
      rfl
    have htakeB : (pyLower f).take B.length = pyLower B := by
      rw [hlow, show B.length = (pyLower B).length from (pyLower_length B).symm,
        List.take_left]
    rw [hdropD, htakeB]
  · intro hnot1 hnot2 hnot3 B D hf hlen hdig
    have hchain := fmt1Chain_none_of_not_has (hnot1 _ (by decide))
      (hnot1 _ (by decide)) (hnot1 _ (by decide))
    have hn2 := fmt2Idx_none_of_not_has hnot2
    have hn3 := fmt3Idx_none_of_not_has hnot3
    have h4 := fmt4Check_of_decomp hf hlen hdig
    rw [is_volume_part_eq_fmt4 hchain hn2 hn3 h4]
    have hfix : pyLower f = pyLower B ++ '.' :: D := by
      rw [hf, pyLower_append]
      congr 1
      show pyLowerChar '.' :: pyLower D = '.' :: D
      rw [pyLower_digits hdig]
      rfl
    have hflen : f.length = B.length + 4 := by
      rw [hf]
      simp only [List.length_append, List.length_cons]
      omega
    have hseq : (pyLower f).drop ((pyLower f).length - 3) = D := by
      rw [pyLower_length, hflen, hfix,
        show B.length + 4 - 3 = (pyLower B).length + 1 from by
          rw [pyLower_length]; omega,
        drop_app_add]
      rfl
    have hbase : f.take (f.length - 4) = B := by
      rw [hflen, hf, show B.length + 4 - 4 = B.length from by omega]
      rw [List.take_left]
    rw [hseq, hbase]
  · intro h1 h2 h3 h4
    exact is_volume_part_eq_none
      (fmt1Chain_none_of_not_has (h1 _ (by decide)) (h1 _ (by decide))
        (h1 _ (by decide)))
      (fmt2Idx_none_of_not_has h2) (fmt3Idx_none_of_not_has h3)
      (fmt4Check_false_of_not_has h4)

/-- C3 counterexample to the claim as stated: `DATA.z02` is a format-3
member decomposing as `DATA` + `.z` + `02`, but the classifier returns the
lowercased base `data`, not the documented original base `DATA`. -/
theorem claim_C3_counterexample :
    (['D', 'A', 'T', 'A', '.', 'z', '0', '2'] : List Char) =
      ['D', 'A', 'T', 'A'] ++ ['.', 'z'] ++ ['0', '2'] ∧
    is_volume_part ['D', 'A', 'T', 'A', '.', 'z', '0', '2'] =
      (true, 2, ['d', 'a', 't', 'a']) ∧
    (['d', 'a', 't', 'a'] : List Char) ≠ ['D', 'A', 'T', 'A'] := by
  decide

/-- Witness instantiating every clause of the amended classifier theorem
at a concrete filename. -/
theorem claim_C3_classifier_witness :
    is_volume_part "data.zip.001".toList = (true, 1, "data.zip".toList) ∧
    is_volume_part "data.7z.010".toList = (true, 10, "data.7z".toList) ∧
    is_volume_part "disk.rar.002".toList = (true, 2, "disk.rar".toList) ∧
    is_volume_part "x.part03.rar".toList = (true, 3, "x".toList) ∧
    is_volume_part "arch.z05".toList = (true, 5, "arch".toList) ∧
    is_volume_part "a.001".toList = (true, 1, "a".toList) ∧
    is_volume_part "readme.txt".toList = (false, 0, "readme.txt".toList) := by
  refine ⟨?_, ?_, ?_, ?_, ?_, ?_, ?_⟩
  · exact (claim_C3_classifier _).1 "data".toList ".zip.".toList "001".toList
      rfl (by decide) (by decide) (by decide)
  · exact (claim_C3_classifier _).2.1
      (not_hasFmt1_of_none (by decide) (by decide))
      "data".toList ".7z.".toList "010".toList rfl (by decide) (by decide)
      (by decide)
  · exact (claim_C3_classifier _).2.2.1
      (not_hasFmt1_of_none (by decide) (by decide))
      (not_hasFmt1_of_none (by decide) (by decide))
      "disk".toList ".rar.".toList "002".toList rfl (by decide) (by decide)
      (by decide)
  · exact (claim_C3_classifier _).2.2.2.1
      (not_hasFmt1_all_of_none (by decide) (by decide) (by decide))
      "x".toList ".part".toList "03".toList ".rar".toList rfl (by decide)
      (by decide) (by decide) (by decide) (by decide)
  · exact (claim_C3_classifier _).2.2.2.2.1
      (not_hasFmt1_all_of_none (by decide) (by decide) (by decide))
      (not_hasFmt2_of_none (by decide))
      "arch".toList ".z".toList "05".toList rfl (by decide) (by decide)
      (by decide) (by decide)
  · exact (claim_C3_classifier _).2.2.2.2.2.1
      (not_hasFmt1_all_of_none (by decide) (by decide) (by decide))
      (not_hasFmt2_of_none (by decide)) (not_hasFmt3_of_none (by decide))
      "a".toList "001".toList rfl (by decide) (by decide)
  · exact (claim_C3_classifier _).2.2.2.2.2.2
      (not_hasFmt1_all_of_none (by decide) (by decide) (by decide))
      (not_hasFmt2_of_none (by decide)) (not_hasFmt3_of_none (by decide))
      (not_hasFmt4_of_false (by decide))


end Unpack
